import Mathlib

/-!
Verification development for the reflex interpreter (lazy-clone lineage:
`nodes.py`, `interpreter.py`, `lexer.py`, `run.py`).

The Python object graph is shallowly embedded as a store of nodes addressed
by natural-number ids (Python object identity becomes the id; `id(a) == id(b)`
becomes equality of ids).  Mutation of a node becomes `setN` on the store,
creation of a node becomes an append.  Python's `WeakKeyDictionary` tables
are modelled as insertion-ordered association lists (weakness only affects
garbage collection, which is unobservable here).  Fallible Python code
(assertions, `KeyError`, `ZeroDivisionError`, `NotImplementedError`,
missing-attribute errors) returns `Except Err`.
-/

/-- Object identity of a Python node. -/
abbrev NodeId := Nat

/-- A clone-overrides table (`WeakKeyDictionary[Node, Node]`), as an
insertion-ordered association list with unique keys. -/
abbrev Overrides := List (Nat × Nat)

/-- `overrides.get(k, None)`. -/
def ovGet (o : Overrides) (k : Nat) : Option Nat :=
  o.lookup k

/-- Python `d[k] = v`: replace in place if the key exists, else append. -/
def ovSet (o : Overrides) (k v : Nat) : Overrides :=
  if (o.lookup k).isSome then o.map (fun p => if p.1 = k then (k, v) else p)
  else o ++ [(k, v)]

/-- Python dict union `a | b` (right operand wins, its new keys appended). -/
def ovUnion (a b : Overrides) : Overrides :=
  b.foldl (fun acc p => ovSet acc p.1 p.2) a

/-- One pass of `_walk_redundant_paths`: collapse `a -> b, b -> c` into
`a -> c`, collecting the middle keys to remove, then delete them. -/
def walkStep (o : Overrides) : Overrides :=
  let f := o.foldl
    (fun (acc : Overrides × List Nat) p =>
      if acc.2.contains p.1 then acc
      else match ovGet o p.2 with
        | some x => (acc.1 ++ [(p.1, x)], acc.2 ++ [p.2])
        | none => (acc.1 ++ [p], acc.2)) ([], [])
  f.1.filter (fun p => !(f.2.contains p.1))

/-- The `while True` loop of `_walk_redundant_paths`: iterate `walkStep`
until the size is stable.  Each non-stable pass strictly shrinks the table,
so `length + 1` iterations always reach the fixpoint. -/
def walkLoop : Nat → Overrides → Overrides
  | 0, o => o
  | f + 1, o =>
    let n := walkStep o
    if n.length = o.length then o else walkLoop f n

/-- `_walk_redundant_paths` (on a non-`None` table). -/
def walkRedundant (o : Overrides) : Overrides :=
  walkLoop (o.length + 1) o

/-- The integer operations stored in `IntOp.fn` closures of
`int_to_block`, as a tagged enum. -/
inductive IntFn
  | add | sub | eqFn | neFn | ltFn | gtFn | leFn | geFn
  | mul | div | mod | bitAnd | bitOr | bitXor
deriving DecidableEq

/-- `StrComparison.op` (a `ComparisonOp` literal in the source). -/
inductive CmpOp
  | eqOp | neOp | ltOp | gtOp | leOp | geOp
deriving DecidableEq

/-- The node variants of `nodes.py` (plus `BinaryOp`/`Conditional`, which
`interpreter.py` imports and preprocesses; their fields are exactly the ones
`preprocess` reads) and the built-in function nodes of `interpreter.py`.
`defs` dictionaries are insertion-ordered association lists with unique
keys; every child is a `NodeId`. -/
inductive NodeData
  | block (defs : List (String × NodeId))
  | overrideNode (base : NodeId) (defs : List (String × NodeId))
  | callNode (base : NodeId) (defs : List (String × NodeId))
  | accessNode (base : NodeId) (attr : String)
  | backEdge (base : NodeId)
  | eagerNode (base : NodeId)
  | cloneAttr (attr : String)
  | intLit (value : Int)
  | stringLit (value : String)
  | identifier (name : String)
  | selfRef
  | parentNode (depth : Nat)
  | ancestorLookup (name : String)
  | binaryOp (x : NodeId) (op : String) (y : NodeId)
  | conditional (cond : NodeId) (a : NodeId) (b : NodeId)
  | intOp (context : NodeId) (fn : IntFn)
  | intStr (context : NodeId)
  | intChr (context : NodeId)
  | selectFn (context : NodeId)
  | intLogicalAnd (context : NodeId)
  | intLogicalOr (context : NodeId)
  | strCat (context : NodeId)
  | strComparison (context : NodeId) (op : CmpOp)
  | strLen (context : NodeId)
  | strSubstr (context : NodeId)

/-- A Python node: its data plus the `_clone_overrides` attribute
(`None`, or a table — possibly empty, which Python treats as falsy in
`propagate_clone` but which is not `None` for `block_get`'s assertion). -/
structure NodeObj where
  data : NodeData
  cloneOverrides : Option Overrides

/-- The heap of live nodes; a `NodeId` is an index into this list. -/
abbrev Store := List NodeObj

/-- Read a node. -/
def getN (s : Store) (i : NodeId) : Option NodeObj :=
  s[i]?

/-- Mutate a node in place. -/
def setN (s : Store) (i : NodeId) (n : NodeObj) : Store :=
  s.set i n

/-- Allocate a fresh node (fresh Python object identity). -/
def alloc (s : Store) (n : NodeObj) : Store × NodeId :=
  (s ++ [n], s.length)

/-- The failure modes of the interpreter: exhausted modelling fuel,
a dangling id (not possible in real Python), `KeyError` from `block_get`,
the two `block_get` assertions, `isinstance` assertion failures, the
preprocessor's errors, `NotImplementedError` from the `Node` base class,
and `ZeroDivisionError` / `ValueError` from the arithmetic closures. -/
inductive Err
  | fuelOut
  | invalidId (i : Nat)
  | missingKey (key : String)
  | notPropagated
  | notABlock
  | typeErr (msg : String)
  | surfaceNode
  | parentDepth
  | indexErr
  | ancestorNotFound (name : String)
  | cannotPreprocess
  | notImpl
  | zeroDivision
  | badChr
  | recursionError
deriving DecidableEq

/-- Read a node or fail. -/
def readE (s : Store) (i : NodeId) : Except Err NodeObj :=
  match getN s i with
  | some n => Except.ok n
  | none => Except.error (Err.invalidId i)

/-- Python truthiness of the `_clone_overrides` attribute:
`None` and the empty table are falsy. -/
def tableTruthy : Option Overrides → Bool
  | none => false
  | some [] => false
  | some (_ :: _) => true

/-- `lazy_clone(self, overrides)`.  Atomic nodes (`Identifier`, `IntLit`,
`StringLit`, `CloneAttr`) return themselves.  `Block`/`Override` produce a
shallow copy whose table is `(overrides | {self: copy} | self.table)`;
`Call`, `Access`, `Eager`, `BackEdge` and the built-ins omit the
`{self: copy}` entry.  Surface nodes (`SelfRef`, `Parent`, ...) hit the
`Node` base class and raise `NotImplementedError`.  The table setter
applies `_walk_redundant_paths`. -/
def lazyClone (s : Store) (i : NodeId) (ov : Overrides) :
    Except Err (Store × NodeId) := do
  let n ← readE s i
  match n.data with
  | NodeData.identifier _ | NodeData.intLit _ | NodeData.stringLit _
  | NodeData.cloneAttr _ => Except.ok (s, i)
  | NodeData.block _ | NodeData.overrideNode _ _ =>
    let t := walkRedundant
      (ovUnion (ovUnion ov [(i, s.length)]) (n.cloneOverrides.getD []))
    Except.ok (alloc s ⟨n.data, some t⟩)
  | NodeData.selfRef | NodeData.parentNode _ | NodeData.ancestorLookup _
  | NodeData.binaryOp _ _ _ | NodeData.conditional _ _ _ =>
    Except.error Err.notImpl
  | _ =>
    let t := walkRedundant (ovUnion ov (n.cloneOverrides.getD []))
    Except.ok (alloc s ⟨n.data, some t⟩)

/-- Clone every value of a defs dictionary with the same table
(the dict comprehension in `Block.propagate_clone` /
`BaseAndDefs.propagate_clone`). -/
def cloneDefs (s : Store) (ds : List (String × NodeId)) (t : Overrides) :
    Except Err (Store × List (String × NodeId)) :=
  match ds with
  | [] => Except.ok (s, [])
  | (k, v) :: rest => do
    let (s1, v1) ← lazyClone s v t
    let (s2, rest1) ← cloneDefs s1 rest t
    Except.ok (s2, (k, v1) :: rest1)

/-- `BackEdge.propagate_clone`'s chase loop
(`while new_base := overrides.get(self.base): self.base = new_base`).
A table with a cycle would hang Python; the fuel (one step per table entry
plus one) errs instead, and is never reached on collapsed tables. -/
def ovChase : Nat → Overrides → NodeId → Except Err NodeId
  | 0, _, _ => Except.error Err.fuelOut
  | f + 1, t, b =>
    match ovGet t b with
    | some nb => ovChase f t nb
    | none => Except.ok b

/-- The children-cloning step of `propagate_clone` on a truthy table:
every child is replaced by `child.lazy_clone(overrides=t)`; a back-edge
instead chases the table (`while new_base := overrides.get(base)`).
Atomic and surface kinds never reach this step (the caller handles them). -/
def propagateChildren (s : Store) (t : Overrides) :
    NodeData → Except Err (Store × NodeData)
  | NodeData.block ds => do
    let (s1, ds1) ← cloneDefs s ds t
    Except.ok (s1, NodeData.block ds1)
  | NodeData.overrideNode b ds => do
    let (s1, b1) ← lazyClone s b t
    let (s2, ds1) ← cloneDefs s1 ds t
    Except.ok (s2, NodeData.overrideNode b1 ds1)
  | NodeData.callNode b ds => do
    let (s1, b1) ← lazyClone s b t
    let (s2, ds1) ← cloneDefs s1 ds t
    Except.ok (s2, NodeData.callNode b1 ds1)
  | NodeData.accessNode b a => do
    let (s1, b1) ← lazyClone s b t
    Except.ok (s1, NodeData.accessNode b1 a)
  | NodeData.eagerNode b => do
    let (s1, b1) ← lazyClone s b t
    Except.ok (s1, NodeData.eagerNode b1)
  | NodeData.backEdge b => do
    let b1 ← ovChase (t.length + 1) t b
    Except.ok (s, NodeData.backEdge b1)
  | NodeData.intOp c fn => do
    let (s1, c1) ← lazyClone s c t
    Except.ok (s1, NodeData.intOp c1 fn)
  | NodeData.intStr c => do
    let (s1, c1) ← lazyClone s c t
    Except.ok (s1, NodeData.intStr c1)
  | NodeData.intChr c => do
    let (s1, c1) ← lazyClone s c t
    Except.ok (s1, NodeData.intChr c1)
  | NodeData.selectFn c => do
    let (s1, c1) ← lazyClone s c t
    Except.ok (s1, NodeData.selectFn c1)
  | NodeData.intLogicalAnd c => do
    let (s1, c1) ← lazyClone s c t
    Except.ok (s1, NodeData.intLogicalAnd c1)
  | NodeData.intLogicalOr c => do
    let (s1, c1) ← lazyClone s c t
    Except.ok (s1, NodeData.intLogicalOr c1)
  | NodeData.strCat c => do
    let (s1, c1) ← lazyClone s c t
    Except.ok (s1, NodeData.strCat c1)
  | NodeData.strComparison c op => do
    let (s1, c1) ← lazyClone s c t
    Except.ok (s1, NodeData.strComparison c1 op)
  | NodeData.strLen c => do
    let (s1, c1) ← lazyClone s c t
    Except.ok (s1, NodeData.strLen c1)
  | NodeData.strSubstr c => do
    let (s1, c1) ← lazyClone s c t
    Except.ok (s1, NodeData.strSubstr c1)
  | _ => Except.error Err.notImpl

/-- `propagate_clone(self)`: `NotImplementedError` for the kinds without
an override; `pass` for atomics; no-op when the table is falsy; otherwise
push the substitution one level down (`propagateChildren`), then store
the rewritten node with its table cleared. -/
def propagateCloneAt (s : Store) (i : NodeId) : Except Err Store := do
  let n ← readE s i
  match n.data with
  | NodeData.selfRef | NodeData.parentNode _ | NodeData.ancestorLookup _
  | NodeData.binaryOp _ _ _ | NodeData.conditional _ _ _ =>
    Except.error Err.notImpl
  | NodeData.identifier _ | NodeData.intLit _ | NodeData.stringLit _
  | NodeData.cloneAttr _ => Except.ok s
  | _ =>
    match n.cloneOverrides with
    | none => Except.ok s
    | some t =>
      if t = [] then Except.ok s
      else do
        let (s1, d1) ← propagateChildren s t n.data
        Except.ok (setN s1 i ⟨d1, none⟩)

/-- Dictionary lookup in a defs list. -/
def defsGet (ds : List (String × NodeId)) (k : String) : Option NodeId :=
  ds.lookup k

/-- Python `defs[k] = v` on a defs dictionary. -/
def defsSet (ds : List (String × NodeId)) (k : String) (v : NodeId) :
    List (String × NodeId) :=
  if (ds.lookup k).isSome then ds.map (fun p => if p.1 = k then (k, v) else p)
  else ds ++ [(k, v)]

/-- `block_get(block, key)`: assert the table is `None`, assert the node is
a `Block`/`Override`, then look up the key (raising `KeyError` if absent).
Returns the raw child id without cloning. -/
def blockGetE (s : Store) (i : NodeId) (key : String) : Except Err NodeId := do
  let n ← readE s i
  match n.cloneOverrides with
  | some _ => Except.error Err.notPropagated
  | none =>
    match n.data with
    | NodeData.block ds | NodeData.overrideNode _ ds =>
      match defsGet ds key with
      | some v => Except.ok v
      | none => Except.error (Err.missingKey key)
    | _ => Except.error Err.notABlock

/-- Apply an `IntOp.fn` closure.  `//` and `%` are Python floor division and
floor-convention remainder (`Int.fdiv`/`Int.fmod`); a zero divisor raises
`ZeroDivisionError`.  Comparisons yield `int(bool)`. -/
def intFnApply : IntFn → Int → Int → Except Err Int
  | IntFn.add, x, y => Except.ok (x + y)
  | IntFn.sub, x, y => Except.ok (x - y)
  | IntFn.eqFn, x, y => Except.ok (if x = y then 1 else 0)
  | IntFn.neFn, x, y => Except.ok (if x = y then 0 else 1)
  | IntFn.ltFn, x, y => Except.ok (if x < y then 1 else 0)
  | IntFn.gtFn, x, y => Except.ok (if y < x then 1 else 0)
  | IntFn.leFn, x, y => Except.ok (if x ≤ y then 1 else 0)
  | IntFn.geFn, x, y => Except.ok (if y ≤ x then 1 else 0)
  | IntFn.mul, x, y => Except.ok (x * y)
  | IntFn.div, x, y =>
    if y = 0 then Except.error Err.zeroDivision else Except.ok (Int.fdiv x y)
  | IntFn.mod, x, y =>
    if y = 0 then Except.error Err.zeroDivision else Except.ok (Int.fmod x y)
  | IntFn.bitAnd, x, y => Except.ok (Int.land x y)
  | IntFn.bitOr, x, y => Except.ok (Int.lor x y)
  | IntFn.bitXor, x, y => Except.ok (Int.xor x y)

/-- `_strcmp_apply`'s comparison dispatch (code-point lexicographic, as in
Python). -/
def cmpApply : CmpOp → String → String → Bool
  | CmpOp.eqOp, x, y => x = y
  | CmpOp.neOp, x, y => ¬ (x = y)
  | CmpOp.ltOp, x, y => x < y
  | CmpOp.gtOp, x, y => y < x
  | CmpOp.leOp, x, y => ¬ (y < x)
  | CmpOp.geOp, x, y => ¬ (x < y)

/-- Python string slicing `s[a : b]`: negative indices count from the end,
then both bounds clamp to `[0, len]`. -/
def pySlice (str : String) (a b : Int) : String :=
  let n : Int := str.length
  let lo : Int := if a < 0 then max (n + a) 0 else min a n
  let hi : Int := if b < 0 then max (n + b) 0 else min b n
  String.mk ((str.data.drop lo.toNat).take (hi.toNat - lo.toNat))

/-!
Primitive-block builders.  In Python these construct a handful of fresh
objects and then mutate `defs` into place (`int_op_block`, `int_to_block`,
`str_method`, `str_to_block`).  Here each builder appends one contiguous
chunk of fresh nodes whose internal references are computed from the base
id; the resulting store is the same as in the mutate-after-allocate order
of the source, and the builders never touch pre-existing nodes.
-/

/-- The shape shared by `int_op_block`, `int_logical_op_block` and
`str_method` with a single `result`: a method block
`{ x: BackEdge(parent), result: builtin(context=BackEdge(method block)) }`.
Nodes: `base` the method block, `base+1` the `x` back-edge, `base+2` the
context back-edge, `base+3` the built-in. -/
def methodChunk (base parentId : NodeId) (d : NodeId → NodeData) :
    List NodeObj :=
  [⟨NodeData.block [("x", base + 1), ("result", base + 3)], none⟩,
   ⟨NodeData.backEdge parentId, none⟩,
   ⟨NodeData.backEdge base, none⟩,
   ⟨d (base + 2), none⟩]

/-- `int_to_block(node)`: the full integer block (node `base`) with
`_inner = node` and one method block per operation, mirroring the
construction order and the `defs` insertion order of the source.
Layout: `base+1..base+4` the `select` block
(`{cond: BackEdge(int block), result: Select(...)}`), then a 4-node
`methodChunk` per binary operation, then `str`/`chr` back-edge+builtin
pairs. -/
def intToBlockChunk (base litId : NodeId) : List NodeObj :=
  ⟨NodeData.block
    [("_inner", litId), ("add", base + 5), ("sub", base + 9),
     ("eq", base + 13), ("ne", base + 17), ("lt", base + 21),
     ("gt", base + 25), ("le", base + 29), ("ge", base + 33),
     ("mul", base + 37), ("div", base + 41), ("mod", base + 45),
     ("bit_and", base + 49), ("bit_or", base + 53), ("bit_xor", base + 57),
     ("logical_and", base + 61), ("logical_or", base + 65),
     ("str", base + 70), ("chr", base + 72), ("select", base + 1)], none⟩ ::
  ⟨NodeData.block [("cond", base + 2), ("result", base + 4)], none⟩ ::
  ⟨NodeData.backEdge base, none⟩ ::
  ⟨NodeData.backEdge (base + 1), none⟩ ::
  ⟨NodeData.selectFn (base + 3), none⟩ ::
  (methodChunk (base + 5) base (fun c => NodeData.intOp c IntFn.add) ++
   methodChunk (base + 9) base (fun c => NodeData.intOp c IntFn.sub) ++
   methodChunk (base + 13) base (fun c => NodeData.intOp c IntFn.eqFn) ++
   methodChunk (base + 17) base (fun c => NodeData.intOp c IntFn.neFn) ++
   methodChunk (base + 21) base (fun c => NodeData.intOp c IntFn.ltFn) ++
   methodChunk (base + 25) base (fun c => NodeData.intOp c IntFn.gtFn) ++
   methodChunk (base + 29) base (fun c => NodeData.intOp c IntFn.leFn) ++
   methodChunk (base + 33) base (fun c => NodeData.intOp c IntFn.geFn) ++
   methodChunk (base + 37) base (fun c => NodeData.intOp c IntFn.mul) ++
   methodChunk (base + 41) base (fun c => NodeData.intOp c IntFn.div) ++
   methodChunk (base + 45) base (fun c => NodeData.intOp c IntFn.mod) ++
   methodChunk (base + 49) base (fun c => NodeData.intOp c IntFn.bitAnd) ++
   methodChunk (base + 53) base (fun c => NodeData.intOp c IntFn.bitOr) ++
   methodChunk (base + 57) base (fun c => NodeData.intOp c IntFn.bitXor) ++
   methodChunk (base + 61) base NodeData.intLogicalAnd ++
   methodChunk (base + 65) base NodeData.intLogicalOr ++
   [⟨NodeData.backEdge base, none⟩, ⟨NodeData.intStr (base + 69), none⟩,
    ⟨NodeData.backEdge base, none⟩, ⟨NodeData.intChr (base + 71), none⟩])

/-- `int_to_block` applied to an existing `IntLit` node (the `_inner`
attribute aliases that very node, as in the source). -/
def intToBlockFromLit (s : Store) (litId : NodeId) : Store × NodeId :=
  (s ++ intToBlockChunk s.length litId, s.length)

/-- `int_to_block(IntLit(value=v))` with a freshly created literal. -/
def intToBlockNew (s : Store) (v : Int) : Store × NodeId :=
  let s1 := s ++ [⟨NodeData.intLit v, none⟩]
  intToBlockFromLit s1 s.length

/-- `str_to_block(node)`: the string block (node `base`).  `cat` and `add`
are `StrCat` method blocks; `len` is a bare `StrLen` whose context
back-edge points at the string block itself (nodes `base+9`, `base+10`);
`substr` is a method block whose `start` is a fresh int block for 0 and
whose default `end` is a `StrLen` whose context also points at the STRING
block (not the method block) — exactly as in the source; then the six
comparison method blocks in source order `le ge eq ne lt gt`. -/
def strToBlockChunk (base litId : NodeId) : List NodeObj :=
  ⟨NodeData.block
    [("_inner", litId), ("cat", base + 1), ("add", base + 5),
     ("len", base + 10), ("substr", base + 11), ("le", base + 91),
     ("ge", base + 95), ("eq", base + 99), ("ne", base + 103),
     ("lt", base + 107), ("gt", base + 111)], none⟩ ::
  (methodChunk (base + 1) base NodeData.strCat ++
   methodChunk (base + 5) base NodeData.strCat ++
   [⟨NodeData.backEdge base, none⟩, ⟨NodeData.strLen (base + 9), none⟩,
    ⟨NodeData.block
      [("x", base + 12), ("start", base + 14), ("end", base + 88),
       ("result", base + 90)], none⟩,
    ⟨NodeData.backEdge base, none⟩,
    ⟨NodeData.intLit 0, none⟩] ++
   intToBlockChunk (base + 14) (base + 13) ++
   [⟨NodeData.backEdge base, none⟩, ⟨NodeData.strLen (base + 87), none⟩,
    ⟨NodeData.backEdge (base + 11), none⟩,
    ⟨NodeData.strSubstr (base + 89), none⟩] ++
   methodChunk (base + 91) base
     (fun c => NodeData.strComparison c CmpOp.leOp) ++
   methodChunk (base + 95) base
     (fun c => NodeData.strComparison c CmpOp.geOp) ++
   methodChunk (base + 99) base
     (fun c => NodeData.strComparison c CmpOp.eqOp) ++
   methodChunk (base + 103) base
     (fun c => NodeData.strComparison c CmpOp.neOp) ++
   methodChunk (base + 107) base
     (fun c => NodeData.strComparison c CmpOp.ltOp) ++
   methodChunk (base + 111) base
     (fun c => NodeData.strComparison c CmpOp.gtOp))

/-- `str_to_block` on an existing `StringLit` node. -/
def strToBlockFromLit (s : Store) (litId : NodeId) : Store × NodeId :=
  (s ++ strToBlockChunk s.length litId, s.length)

/-- `str_to_block(StringLit(value=v))` with a fresh literal. -/
def strToBlockNew (s : Store) (v : String) : Store × NodeId :=
  let s1 := s ++ [⟨NodeData.stringLit v, none⟩]
  strToBlockFromLit s1 s.length

/-- The `fn_name` table of `preprocess`'s `BinaryOp` case; a missing
operator would raise `KeyError` in Python. -/
def binOpMethod : String → Option String
  | "==" => some ("eq")
  | "!=" => some ("ne")
  | "<" => some ("lt")
  | ">" => some ("gt")
  | ">=" => some ("ge")
  | "<=" => some ("le")
  | "+" => some ("add")
  | "-" => some ("sub")
  | "/" => some ("div")
  | "*" => some ("mul")
  | "%" => some ("mod")
  | "&&" => some ("logical_and")
  | "||" => some ("logical_or")
  | _ => none

/-- The `AncestorLookup` scan of `preprocess`: iterate over
`parents[:-1][::-1]` (strict ancestors, innermost-but-one first) and
overwrite `found_parent` on every ancestor whose keys contain `name`
(the loop has no `break`, so the final value is the LAST hit, i.e. the
outermost defining ancestor).  An ancestor is `(id, keys)`: the block's
identity and its attribute names (the placeholder dict of the two-phase
pass, which is what `block_get` success tests against). -/
def ancestorScan (parents : List (NodeId × List String)) (name : String) :
    Option NodeId :=
  parents.dropLast.reverse.foldl
    (fun acc p => if p.2.contains name then some p.1 else acc) none

/-- Preprocess the right-hand sides of a defs dictionary in order with a
given preprocessing function (the dict comprehensions of `preprocess`). -/
def prepDefs (go : Store → NodeId → Except Err (Store × NodeId)) :
    Store → List (String × NodeId) →
    Except Err (Store × List (String × NodeId))
  | s, [] => Except.ok (s, [])
  | s, (k, v) :: rest => do
    let (s1, v1) ← go s v
    let (s2, r) ← prepDefs go s1 rest
    Except.ok (s2, (k, v1) :: r)

/-- `preprocess(parents, expr)`.  `parents` carries, for each enclosing
`Block`/`Override` (outermost first), its identity and its key set — the
placeholder defs of the source's two-phase pass.  The fuel is a modelling
artifact (the input AST is a finite tree); each recursion step consumes
one unit. -/
def preprocessF : Nat → List (NodeId × List String) → Store → NodeId →
    Except Err (Store × NodeId)
  | 0, _, _, _ => Except.error Err.fuelOut
  | f + 1, parents, s, e => do
    let n ← readE s e
    match n.data with
    | NodeData.parentNode d =>
      if d + 1 ≤ parents.length then
        match parents[parents.length - (d + 1)]? with
        | some p => Except.ok (alloc s ⟨NodeData.backEdge p.1, none⟩)
        | none => Except.error Err.indexErr
      else Except.error Err.parentDepth
    | NodeData.selfRef =>
      match parents.getLast? with
      | some p => Except.ok (alloc s ⟨NodeData.backEdge p.1, none⟩)
      | none => Except.error Err.indexErr
    | NodeData.accessNode b attr => do
      let (s1, b1) ← preprocessF f parents s b
      Except.ok (alloc s1 ⟨NodeData.accessNode b1 attr, none⟩)
    | NodeData.ancestorLookup name =>
      match ancestorScan parents name with
      | some p =>
        let (s1, be) := alloc s ⟨NodeData.backEdge p, none⟩
        Except.ok (alloc s1 ⟨NodeData.accessNode be name, none⟩)
      | none => Except.error (Err.ancestorNotFound name)
    | NodeData.block ds => do
      let (s1, b) := alloc s ⟨NodeData.block [], none⟩
      let keys := ds.map Prod.fst
      let r ← prepDefs (preprocessF f (parents ++ [(b, keys)])) s1 ds
      Except.ok (setN r.1 b ⟨NodeData.block r.2, none⟩, b)
    | NodeData.overrideNode base ds => do
      let (s1, o) := alloc s ⟨NodeData.overrideNode 0 [], none⟩
      let (s2, base1) ← preprocessF f parents s1 base
      let keys := ds.map Prod.fst
      let r ← prepDefs (preprocessF f (parents ++ [(o, keys)])) s2 ds
      Except.ok (setN r.1 o ⟨NodeData.overrideNode base1 r.2, none⟩, o)
    | NodeData.callNode base ds => do
      let (s1, base1) ← preprocessF f parents s base
      let r ← prepDefs (preprocessF f parents) s1 ds
      Except.ok (alloc r.1 ⟨NodeData.callNode base1 r.2, none⟩)
    | NodeData.binaryOp x op y =>
      match binOpMethod op with
      | some m =>
        let (s1, a1) := alloc s ⟨NodeData.accessNode x m, none⟩
        let (s2, c) := alloc s1 ⟨NodeData.callNode a1 [("y", y)], none⟩
        let (s3, a2) := alloc s2 ⟨NodeData.accessNode c "result", none⟩
        preprocessF f parents s3 a2
      | none => Except.error (Err.missingKey op)
    | NodeData.conditional cond a b =>
      let (s1, a1) := alloc s ⟨NodeData.accessNode cond "select", none⟩
      let (s2, c) := alloc s1
        ⟨NodeData.callNode a1 [("true", a), ("false", b)], none⟩
      let (s3, a2) := alloc s2 ⟨NodeData.accessNode c "result", none⟩
      preprocessF f parents s3 a2
    | NodeData.intLit _ => Except.ok (intToBlockFromLit s e)
    | NodeData.stringLit _ => Except.ok (strToBlockFromLit s e)
    | NodeData.identifier name =>
      let (s1, sr) := alloc s ⟨NodeData.selfRef, none⟩
      let (s2, ac) := alloc s1 ⟨NodeData.accessNode sr name, none⟩
      preprocessF f parents s2 ac
    | NodeData.eagerNode b => do
      let (s1, b1) ← preprocessF f parents s b
      Except.ok (alloc s1 ⟨NodeData.eagerNode b1, none⟩)
    | NodeData.cloneAttr _ => Except.ok (s, e)
    | _ => Except.error Err.cannotPreprocess

/-- The evaluator's continuation frames (the closures pushed on `stack`
in `evaluate_result`, with exactly the state each `partial` captures). -/
inductive Frame
  | accessAfterBase (attr : String)
  | overrideAfterBase (ov : NodeId)
  | intopAfterX (exprId : NodeId)
  | intopApply (fn : IntFn) (x : Int)
  | logicalAfterX (exprId : NodeId) (isOr : Bool)
  | selectAfterCond (exprId : NodeId)
  | intstrApply
  | intchrApply
  | strcatAfterX (exprId : NodeId)
  | strcatApply (x : String)
  | strcmpAfterX (exprId : NodeId) (op : CmpOp)
  | strcmpApply (x : String) (op : CmpOp)
  | strlenAfterX
  | strsubstrAfterX (exprId : NodeId)
  | strsubstrAfterStart (x : String) (exprId : NodeId)
  | strsubstrApply (x : String) (start : Int)
  | eagerEval (blockId : NodeId) (attrs : List String)

/-- A frame's return `(expr, value)` where exactly one is set. -/
inductive FrameRes
  | toExpr (e : NodeId)
  | toValue (v : NodeId)

/-- `assert isinstance(x, IntLit)` plus `.value`. -/
def asIntLit (s : Store) (i : NodeId) : Except Err Int := do
  let n ← readE s i
  match n.data with
  | NodeData.intLit x => Except.ok x
  | _ => Except.error (Err.typeErr "IntLit")

/-- `assert isinstance(x, StringLit)` plus `.value`. -/
def asStringLit (s : Store) (i : NodeId) : Except Err String := do
  let n ← readE s i
  match n.data with
  | NodeData.stringLit x => Except.ok x
  | _ => Except.error (Err.typeErr "StringLit")

/-- The `context` field of a built-in node. -/
def contextOf : NodeData → Option NodeId
  | NodeData.intOp c _ => some c
  | NodeData.intStr c => some c
  | NodeData.intChr c => some c
  | NodeData.selectFn c => some c
  | NodeData.intLogicalAnd c => some c
  | NodeData.intLogicalOr c => some c
  | NodeData.strCat c => some c
  | NodeData.strComparison c _ => some c
  | NodeData.strLen c => some c
  | NodeData.strSubstr c => some c
  | _ => none

/-- Read `expr.context` of a built-in node from the store. -/
def getContext (s : Store) (i : NodeId) : Except Err NodeId := do
  let n ← readE s i
  match contextOf n.data with
  | some c => Except.ok c
  | none => Except.error (Err.typeErr "context")

/-- Python `node.defs[k] = v` (raises `AttributeError` on a node with no
`defs`). -/
def setDefAt (s : Store) (i : NodeId) (k : String) (v : NodeId) :
    Except Err Store := do
  let n ← readE s i
  match n.data with
  | NodeData.block ds =>
    Except.ok (setN s i ⟨NodeData.block (defsSet ds k v), n.cloneOverrides⟩)
  | NodeData.overrideNode b ds =>
    Except.ok
      (setN s i ⟨NodeData.overrideNode b (defsSet ds k v), n.cloneOverrides⟩)
  | NodeData.callNode b ds =>
    Except.ok
      (setN s i ⟨NodeData.callNode b (defsSet ds k v), n.cloneOverrides⟩)
  | _ => Except.error (Err.typeErr "defs")

/-- The loop of `_override_after_base`:
`new_block.defs[k] = v.lazy_clone(overrides={override: new_block})`. -/
def overrideWriteDefs (s : Store) (c ovId : NodeId)
    (ds : List (String × NodeId)) : Except Err Store :=
  match ds with
  | [] => Except.ok s
  | (k, vid) :: rest => do
    let (s1, v1) ← lazyClone s vid [(ovId, c)]
    let s2 ← setDefAt s1 c k v1
    overrideWriteDefs s2 c ovId rest

/-- `eager_keys(block)`: the keys whose stored definition is an `Eager`
node, in defs order. -/
def eagerKeysF (s : Store) (ds : List (String × NodeId)) : List String :=
  ds.filterMap (fun kv =>
    match getN s kv.2 with
    | some ⟨NodeData.eagerNode _, _⟩ => some kv.1
    | _ => none)

/-- `attr_clones(block)`: the `(key, CloneAttr.attr)` pairs, in defs
order. -/
def attrClonesF (s : Store) (ds : List (String × NodeId)) :
    List (String × String) :=
  ds.filterMap (fun kv =>
    match getN s kv.2 with
    | some ⟨NodeData.cloneAttr a, _⟩ => some (kv.1, a)
    | _ => none)

/-- The loop `expr.defs[target] = expr.defs[source]` of the CloneAttr
branch of the evaluator (sequential; later reads see earlier writes). -/
def cloneAttrsApply (s : Store) (c : NodeId)
    (pairs : List (String × String)) : Except Err Store :=
  match pairs with
  | [] => Except.ok s
  | (target, source) :: rest => do
    let n ← readE s c
    match n.data with
    | NodeData.block ds =>
      match defsGet ds source with
      | some sv =>
        cloneAttrsApply
          (setN s c ⟨NodeData.block (defsSet ds target sv), n.cloneOverrides⟩)
          c rest
      | none => Except.error (Err.missingKey source)
    | _ => Except.error (Err.typeErr "defs")

/-- `(is_or and x.value) or (not is_or and not x.value)`:
is the short-circuit argument decisive? -/
def logicalDecisive (isOr : Bool) (x : Int) : Bool :=
  (isOr && !(x == 0)) || (!isOr && (x == 0))

/-- `chr(x)` wrapped: Python accepts any code point in `[0, 0x110000)`
(including surrogates, which a Lean `String` cannot carry; no claim
exercises them) and raises `ValueError` otherwise. -/
def pyChr (x : Int) : Except Err String :=
  if 0 ≤ x ∧ Nat.isValidChar x.toNat then
    Except.ok (String.mk [Char.ofNat x.toNat])
  else Except.error Err.badChr

/-- Apply one popped continuation to a delivered value: the bodies of the
closure functions of `evaluate_result`.  Returns the updated store, the
frames the closure pushed, and its `(expr, value)` result. -/
def applyFrame (s : Store) (fr : Frame) (v : NodeId) :
    Except Err (Store × List Frame × FrameRes) :=
  match fr with
  | Frame.accessAfterBase attr => do
    let e ← blockGetE s v attr
    Except.ok (s, [], FrameRes.toExpr e)
  | Frame.overrideAfterBase ovId => do
    let (s1, c) ← lazyClone s v []
    let s2 ← propagateCloneAt s1 c
    let n ← readE s2 ovId
    match n.data with
    | NodeData.callNode _ ds | NodeData.overrideNode _ ds => do
      let s3 ← overrideWriteDefs s2 c ovId ds
      Except.ok (s3, [], FrameRes.toExpr c)
    | _ => Except.error (Err.typeErr "override")
  | Frame.intopAfterX exprId => do
    let x ← asIntLit s v
    let n ← readE s exprId
    match n.data with
    | NodeData.intOp ctx fn =>
      let (s1, a1) := alloc s ⟨NodeData.accessNode ctx "y", none⟩
      let (s2, a2) := alloc s1 ⟨NodeData.accessNode a1 "_inner", none⟩
      Except.ok (s2, [Frame.intopApply fn x], FrameRes.toExpr a2)
    | _ => Except.error (Err.typeErr "IntOp")
  | Frame.intopApply fn x => do
    let y ← asIntLit s v
    let r ← intFnApply fn x y
    let (s1, b) := intToBlockNew s r
    Except.ok (s1, [], FrameRes.toValue b)
  | Frame.logicalAfterX exprId isOr => do
    let x ← asIntLit s v
    if logicalDecisive isOr x then
      let (s1, b) := intToBlockFromLit s v
      Except.ok (s1, [], FrameRes.toValue b)
    else do
      let ctx ← getContext s exprId
      let (s1, a1) := alloc s ⟨NodeData.accessNode ctx "y", none⟩
      Except.ok (s1, [], FrameRes.toExpr a1)
  | Frame.selectAfterCond exprId => do
    let c ← asIntLit s v
    let ctx ← getContext s exprId
    let attr := if c == 0 then "false" else "true"
    let (s1, a1) := alloc s ⟨NodeData.accessNode ctx attr, none⟩
    Except.ok (s1, [], FrameRes.toExpr a1)
  | Frame.intstrApply => do
    let x ← asIntLit s v
    let (s1, b) := strToBlockNew s (toString x)
    Except.ok (s1, [], FrameRes.toValue b)
  | Frame.intchrApply => do
    let x ← asIntLit s v
    let c ← pyChr x
    let (s1, b) := strToBlockNew s c
    Except.ok (s1, [], FrameRes.toValue b)
  | Frame.strcatAfterX exprId => do
    let x ← asStringLit s v
    let ctx ← getContext s exprId
    let (s1, a1) := alloc s ⟨NodeData.accessNode ctx "y", none⟩
    let (s2, a2) := alloc s1 ⟨NodeData.accessNode a1 "_inner", none⟩
    Except.ok (s2, [Frame.strcatApply x], FrameRes.toExpr a2)
  | Frame.strcatApply x => do
    let y ← asStringLit s v
    let (s1, b) := strToBlockNew s (x ++ y)
    Except.ok (s1, [], FrameRes.toValue b)
  | Frame.strcmpAfterX exprId op => do
    let x ← asStringLit s v
    let ctx ← getContext s exprId
    let (s1, a1) := alloc s ⟨NodeData.accessNode ctx "y", none⟩
    let (s2, a2) := alloc s1 ⟨NodeData.accessNode a1 "_inner", none⟩
    Except.ok (s2, [Frame.strcmpApply x op], FrameRes.toExpr a2)
  | Frame.strcmpApply x op => do
    let y ← asStringLit s v
    let (s1, b) := intToBlockNew s (if cmpApply op x y then 1 else 0)
    Except.ok (s1, [], FrameRes.toValue b)
  | Frame.strlenAfterX => do
    let x ← asStringLit s v
    let (s1, b) := intToBlockNew s (x.length : Int)
    Except.ok (s1, [], FrameRes.toValue b)
  | Frame.strsubstrAfterX exprId => do
    let x ← asStringLit s v
    let ctx ← getContext s exprId
    let (s1, a1) := alloc s ⟨NodeData.accessNode ctx "start", none⟩
    let (s2, a2) := alloc s1 ⟨NodeData.accessNode a1 "_inner", none⟩
    Except.ok (s2, [Frame.strsubstrAfterStart x exprId], FrameRes.toExpr a2)
  | Frame.strsubstrAfterStart x exprId => do
    let st ← asIntLit s v
    let ctx ← getContext s exprId
    let (s1, a1) := alloc s ⟨NodeData.accessNode ctx "end", none⟩
    let (s2, a2) := alloc s1 ⟨NodeData.accessNode a1 "_inner", none⟩
    Except.ok (s2, [Frame.strsubstrApply x st], FrameRes.toExpr a2)
  | Frame.strsubstrApply x st => do
    let en ← asIntLit s v
    let (s1, b) := strToBlockNew s (pySlice x st en)
    Except.ok (s1, [], FrameRes.toValue b)
  | Frame.eagerEval b attrs =>
    match attrs with
    | [] => Except.error (Err.typeErr "eager")
    | a0 :: rest => do
      let (s1, cv) ← lazyClone s v []
      let s2 ← setDefAt s1 b a0 cv
      match rest with
      | [] => Except.ok (s2, [], FrameRes.toExpr b)
      | a1 :: _ => do
        let nv ← blockGetE s2 b a1
        Except.ok (s2, [Frame.eagerEval b rest], FrameRes.toValue nv)

/-- The evaluator's control state: reducing a current expression
(one iteration of the outer `while True`) or delivering a value to the
continuation stack (one iteration of the inner `while True`). -/
inductive Mode
  | descend (e : NodeId)
  | deliver (v : NodeId)

/-- The outcome of one loop iteration. -/
inductive StepOut
  | cont (s : Store) (stack : List Frame) (m : Mode)
  | final (s : Store) (v : NodeId)

/-- One iteration of `evaluate_result`'s loops.  Descend: assert the
expression is not a surviving `Identifier`/`SelfRef`, propagate its
pending clone, then dispatch on its kind.  Deliver: pop one frame and
apply it (the inner loop), propagating clones on values. -/
def stepOnce (s : Store) (stack : List Frame) (m : Mode) :
    Except Err StepOut :=
  match m with
  | Mode.descend e => do
    let n ← readE s e
    match n.data with
    | NodeData.identifier _ | NodeData.selfRef =>
      Except.error Err.surfaceNode
    | _ => do
      let s ← propagateCloneAt s e
      let n ← readE s e
      match n.data with
      | NodeData.accessNode b attr =>
        Except.ok
          (StepOut.cont s (Frame.accessAfterBase attr :: stack)
            (Mode.descend b))
      | NodeData.eagerNode b =>
        Except.ok (StepOut.cont s stack (Mode.descend b))
      | NodeData.callNode b _ =>
        Except.ok
          (StepOut.cont s (Frame.overrideAfterBase e :: stack)
            (Mode.descend b))
      | NodeData.overrideNode b _ =>
        Except.ok
          (StepOut.cont s (Frame.overrideAfterBase e :: stack)
            (Mode.descend b))
      | NodeData.backEdge b =>
        Except.ok (StepOut.cont s stack (Mode.descend b))
      | NodeData.intOp ctx _ =>
        let (s1, a1) := alloc s ⟨NodeData.accessNode ctx "x", none⟩
        let (s2, a2) := alloc s1 ⟨NodeData.accessNode a1 "_inner", none⟩
        Except.ok
          (StepOut.cont s2 (Frame.intopAfterX e :: stack) (Mode.descend a2))
      | NodeData.intLogicalOr ctx =>
        let (s1, a1) := alloc s ⟨NodeData.accessNode ctx "x", none⟩
        let (s2, a2) := alloc s1 ⟨NodeData.accessNode a1 "_inner", none⟩
        Except.ok
          (StepOut.cont s2 (Frame.logicalAfterX e true :: stack)
            (Mode.descend a2))
      | NodeData.intLogicalAnd ctx =>
        let (s1, a1) := alloc s ⟨NodeData.accessNode ctx "x", none⟩
        let (s2, a2) := alloc s1 ⟨NodeData.accessNode a1 "_inner", none⟩
        Except.ok
          (StepOut.cont s2 (Frame.logicalAfterX e false :: stack)
            (Mode.descend a2))
      | NodeData.selectFn ctx =>
        let (s1, a1) := alloc s ⟨NodeData.accessNode ctx "cond", none⟩
        let (s2, a2) := alloc s1 ⟨NodeData.accessNode a1 "_inner", none⟩
        Except.ok
          (StepOut.cont s2 (Frame.selectAfterCond e :: stack)
            (Mode.descend a2))
      | NodeData.intStr ctx =>
        let (s1, a1) := alloc s ⟨NodeData.accessNode ctx "_inner", none⟩
        Except.ok
          (StepOut.cont s1 (Frame.intstrApply :: stack) (Mode.descend a1))
      | NodeData.intChr ctx =>
        let (s1, a1) := alloc s ⟨NodeData.accessNode ctx "_inner", none⟩
        Except.ok
          (StepOut.cont s1 (Frame.intchrApply :: stack) (Mode.descend a1))
      | NodeData.strCat ctx =>
        let (s1, a1) := alloc s ⟨NodeData.accessNode ctx "x", none⟩
        let (s2, a2) := alloc s1 ⟨NodeData.accessNode a1 "_inner", none⟩
        Except.ok
          (StepOut.cont s2 (Frame.strcatAfterX e :: stack) (Mode.descend a2))
      | NodeData.strComparison ctx op =>
        let (s1, a1) := alloc s ⟨NodeData.accessNode ctx "x", none⟩
        let (s2, a2) := alloc s1 ⟨NodeData.accessNode a1 "_inner", none⟩
        Except.ok
          (StepOut.cont s2 (Frame.strcmpAfterX e op :: stack)
            (Mode.descend a2))
      | NodeData.strLen ctx =>
        let (s1, a1) := alloc s ⟨NodeData.accessNode ctx "x", none⟩
        let (s2, a2) := alloc s1 ⟨NodeData.accessNode a1 "_inner", none⟩
        Except.ok
          (StepOut.cont s2 (Frame.strlenAfterX :: stack) (Mode.descend a2))
      | NodeData.strSubstr ctx =>
        let (s1, a1) := alloc s ⟨NodeData.accessNode ctx "x", none⟩
        let (s2, a2) := alloc s1 ⟨NodeData.accessNode a1 "_inner", none⟩
        Except.ok
          (StepOut.cont s2 (Frame.strsubstrAfterX e :: stack)
            (Mode.descend a2))
      | NodeData.block ds =>
        let ac := attrClonesF s ds
        if ac.isEmpty then
          let ek := eagerKeysF s ds
          match ek with
          | [] => Except.ok (StepOut.cont s stack (Mode.deliver e))
          | k0 :: _ => do
            let (s1, c) ← lazyClone s e []
            let s2 ← propagateCloneAt s1 c
            let v0 ← blockGetE s2 c k0
            Except.ok
              (StepOut.cont s2 (Frame.eagerEval c ek :: stack)
                (Mode.descend v0))
        else do
          let (s1, c) ← lazyClone s e []
          let s2 ← cloneAttrsApply s1 c ac
          Except.ok (StepOut.cont s2 stack (Mode.descend c))
      | _ =>
        -- leaf (IntLit, StringLit, CloneAttr, Override-free Block handled
        -- above): pass the expression to the continuations as a value
        Except.ok (StepOut.cont s stack (Mode.deliver e))
  | Mode.deliver v =>
    match stack with
    | [] => Except.ok (StepOut.final s v)
    | fr :: rest => do
      let (s1, pushes, r) ← applyFrame s fr v
      match r with
      | FrameRes.toExpr e =>
        Except.ok (StepOut.cont s1 (pushes ++ rest) (Mode.descend e))
      | FrameRes.toValue v1 => do
        let s2 ← propagateCloneAt s1 v1
        Except.ok (StepOut.cont s2 (pushes ++ rest) (Mode.deliver v1))

/-- `evaluate_result`'s driving loop, fueled. -/
def run : Nat → Store → List Frame → Mode → Except Err (Store × NodeId)
  | 0, _, _, _ => Except.error Err.fuelOut
  | f + 1, s, stack, m => do
    let o ← stepOnce s stack m
    match o with
    | StepOut.final s1 v => Except.ok (s1, v)
    | StepOut.cont s1 k1 m1 => run f s1 k1 m1

/-- `evaluate_result(expr)`. -/
def evaluateResult (fuel : Nat) (s : Store) (e : NodeId) :
    Except Err (Store × NodeId) :=
  run fuel s [] (Mode.descend e)

/-- `program_result(program)`: preprocess under an empty ancestor stack,
then evaluate the `result` attribute. -/
def programResult (fuel : Nat) (s : Store) (moduleId : NodeId) :
    Except Err (Store × NodeId) := do
  let (s1, p) ← preprocessF fuel [] s moduleId
  let r ← blockGetE s1 p "result"
  run fuel s1 [] (Mode.descend r)

/-- Escape one character as CPython's string repr does for the characters
the claims exercise (backslash, the quote character, newline, carriage
return, tab; other printable characters stand for themselves). -/
def pyEscChar (q c : Char) : String :=
  if c = Char.ofNat 92 then String.mk [Char.ofNat 92, Char.ofNat 92]
  else if c = q then String.mk [Char.ofNat 92, q]
  else if c = Char.ofNat 10 then String.mk [Char.ofNat 92, Char.ofNat 110]
  else if c = Char.ofNat 13 then String.mk [Char.ofNat 92, Char.ofNat 114]
  else if c = Char.ofNat 9 then String.mk [Char.ofNat 92, Char.ofNat 116]
  else String.mk [c]

/-- Python `repr` of a string: single quotes, switching to double quotes
when the text contains a single quote but no double quote. -/
def pyStrRepr (v : String) : String :=
  let q :=
    if v.contains (Char.ofNat 39) && !(v.contains (Char.ofNat 34)) then
      Char.ofNat 34
    else Char.ofNat 39
  String.mk [q] ++ String.join (v.data.map (pyEscChar q)) ++ String.mk [q]

/-- The comparison operator as the string `interpreter.py` stores in a
`StrComparison`'s `op` field. -/
def cmpOpStr : CmpOp → String
  | CmpOp.eqOp => "=="
  | CmpOp.neOp => "!="
  | CmpOp.ltOp => "<"
  | CmpOp.gtOp => ">"
  | CmpOp.leOp => "<="
  | CmpOp.geOp => ">="

/-- The entries of a `defs` dictionary's repr (`repr(key): repr(value)`),
for a given child-repr function. -/
def pyReprDefs (go : NodeId → Except Err String) :
    List (String × NodeId) → Except Err (List String)
  | [] => Except.ok []
  | (k, v) :: rest => do
    let vs ← go v
    let rs ← pyReprDefs go rest
    Except.ok ((pyStrRepr k ++ ": " ++ vs) :: rs)

/-- Python's dict repr around already-rendered entries. -/
def pyDictRepr (parts : List String) : String :=
  "\x7b" ++ String.intercalate ", " parts ++ "\x7d"

/-- The generated dataclass `repr` of a node, as `print(result)` in
`run.py` renders it: `ClassName(field=repr(value), ...)` with inherited
fields first, recursing through child nodes and `defs` dictionaries
(`_clone_overrides` is an instance attribute, not a dataclass field, so
it is never printed).  The recursion follows object references, so a
cyclic graph exhausts Python's recursion limit (`RecursionError`); the
fuel models that limit.  Two spots stay unmodelled: `IntOp`'s repr
embeds its `fn` function object's memory address, so its text is not a
function of the program; and `BinaryOp`/`Conditional` have no class
bodies in `src/nodes.py`, so their reprs use the field names
`interpreter.py` constructs and reads them with. -/
def pyReprNode : Nat → Store → NodeId → Except Err String
  | 0, _, _ => Except.error Err.recursionError
  | fuel + 1, s, i => do
    let n ← readE s i
    match n.data with
    | NodeData.block ds => do
      let ps ← pyReprDefs (pyReprNode fuel s) ds
      Except.ok ("Block(defs=" ++ pyDictRepr ps ++ ")")
    | NodeData.overrideNode b ds => do
      let bs ← pyReprNode fuel s b
      let ps ← pyReprDefs (pyReprNode fuel s) ds
      Except.ok ("Override(base=" ++ bs ++ ", defs=" ++ pyDictRepr ps ++ ")")
    | NodeData.callNode b ds => do
      let bs ← pyReprNode fuel s b
      let ps ← pyReprDefs (pyReprNode fuel s) ds
      Except.ok ("Call(base=" ++ bs ++ ", defs=" ++ pyDictRepr ps ++ ")")
    | NodeData.accessNode b a => do
      let bs ← pyReprNode fuel s b
      Except.ok ("Access(base=" ++ bs ++ ", attr=" ++ pyStrRepr a ++ ")")
    | NodeData.backEdge b => do
      let bs ← pyReprNode fuel s b
      Except.ok ("BackEdge(base=" ++ bs ++ ")")
    | NodeData.eagerNode b => do
      let bs ← pyReprNode fuel s b
      Except.ok ("Eager(base=" ++ bs ++ ")")
    | NodeData.cloneAttr a =>
      Except.ok ("CloneAttr(attr=" ++ pyStrRepr a ++ ")")
    | NodeData.intLit v => Except.ok ("IntLit(value=" ++ toString v ++ ")")
    | NodeData.stringLit v =>
      Except.ok ("StringLit(value=" ++ pyStrRepr v ++ ")")
    | NodeData.identifier nm =>
      Except.ok ("Identifier(name=" ++ pyStrRepr nm ++ ")")
    | NodeData.selfRef => Except.ok "SelfRef()"
    | NodeData.parentNode d =>
      Except.ok ("Parent(depth=" ++ toString d ++ ")")
    | NodeData.ancestorLookup nm =>
      Except.ok ("AncestorLookup(name=" ++ pyStrRepr nm ++ ")")
    | NodeData.binaryOp x op y => do
      let xs ← pyReprNode fuel s x
      let ys ← pyReprNode fuel s y
      Except.ok ("BinaryOp(x=" ++ xs ++ ", op=" ++ pyStrRepr op ++
        ", y=" ++ ys ++ ")")
    | NodeData.conditional c a b => do
      let cs ← pyReprNode fuel s c
      let es ← pyReprNode fuel s a
      let bs ← pyReprNode fuel s b
      Except.ok ("Conditional(cond=" ++ cs ++ ", a=" ++ es ++
        ", b=" ++ bs ++ ")")
    | NodeData.intOp _ _ => Except.error Err.notImpl
    | NodeData.intStr c => do
      let cs ← pyReprNode fuel s c
      Except.ok ("IntStr(context=" ++ cs ++ ")")
    | NodeData.intChr c => do
      let cs ← pyReprNode fuel s c
      Except.ok ("IntChr(context=" ++ cs ++ ")")
    | NodeData.selectFn c => do
      let cs ← pyReprNode fuel s c
      Except.ok ("Select(context=" ++ cs ++ ")")
    | NodeData.intLogicalAnd c => do
      let cs ← pyReprNode fuel s c
      Except.ok ("IntLogicalAnd(context=" ++ cs ++ ")")
    | NodeData.intLogicalOr c => do
      let cs ← pyReprNode fuel s c
      Except.ok ("IntLogicalOr(context=" ++ cs ++ ")")
    | NodeData.strCat c => do
      let cs ← pyReprNode fuel s c
      Except.ok ("StrCat(context=" ++ cs ++ ")")
    | NodeData.strComparison c op => do
      let cs ← pyReprNode fuel s c
      Except.ok ("StrComparison(context=" ++ cs ++ ", op=" ++
        pyStrRepr (cmpOpStr op) ++ ")")
    | NodeData.strLen c => do
      let cs ← pyReprNode fuel s c
      Except.ok ("StrLen(context=" ++ cs ++ ")")
    | NodeData.strSubstr c => do
      let cs ← pyReprNode fuel s c
      Except.ok ("StrSubstr(context=" ++ cs ++ ")")

/-- `main` of `run.py` after parsing: evaluate the module, project
`_inner` (falling back to the whole result block only on `KeyError`),
and print. -/
def cliOutput (fuel : Nat) (s : Store) (moduleId : NodeId) :
    Except Err String := do
  let (s1, rb) ← programResult fuel s moduleId
  match blockGetE s1 rb "_inner" with
  | Except.ok innerId => pyReprNode fuel s1 innerId
  | Except.error (Err.missingKey _) => pyReprNode fuel s1 rb
  | Except.error e => Except.error e

/-- Evaluate an expression and return the data of the result's `_inner`
attribute (the primitive the result block carries). -/
def evalInner (fuel : Nat) (s : Store) (e : NodeId) : Except Err NodeData := do
  let (s1, v) ← run fuel s [] (Mode.descend e)
  let innerId ← blockGetE s1 v "_inner"
  let n ← readE s1 innerId
  Except.ok n.data

/-- Iterate `stepOnce` a fixed number of times (to observe intermediate
machine states of `evaluate_result`). -/
def stepIter : Nat → Store → List Frame → Mode → Except Err StepOut
  | 0, s, k, m => Except.ok (StepOut.cont s k m)
  | n + 1, s, k, m => do
    let o ← stepOnce s k m
    match o with
    | StepOut.cont s1 k1 m1 => stepIter n s1 k1 m1
    | StepOut.final s1 v => Except.ok (StepOut.final s1 v)

/-!  Frame lemmas: evaluation never touches a pre-existing node.

`AgreesBelow n0 s s'` says the first `n0` ids read the same in `s'` as in
`s`; `CleanBelow n0 s` says no node below `n0` has a truthy pending-clone
table; `StackOk n0` says every `eager_eval` frame's target block is a
fresh node.  -/

/-- `s2` agrees with `s1` on every id below `n0`. -/
def AgreesBelow (n0 : Nat) (s1 s2 : Store) : Prop :=
  ∀ i, i < n0 → getN s2 i = getN s1 i

/-- No node below `n0` has a truthy pending-clone table. -/
def CleanBelow (n0 : Nat) (s : Store) : Prop :=
  ∀ i, i < n0 → ∀ n, getN s i = some n → tableTruthy n.cloneOverrides = false

/-- The only frame that mutates a captured node is `eager_eval`; its
block is always a fresh clone. -/
def FrameOk (n0 : Nat) : Frame → Prop
  | Frame.eagerEval b _ => n0 ≤ b
  | _ => True

/-- All frames on the stack satisfy `FrameOk`. -/
def StackOk (n0 : Nat) (k : List Frame) : Prop :=
  ∀ f ∈ k, FrameOk n0 f

theorem agreesBelow_refl (n0 : Nat) (s : Store) : AgreesBelow n0 s s :=
  fun _ _ => rfl

theorem agreesBelow_trans {n0 : Nat} {s1 s2 s3 : Store}
    (h1 : AgreesBelow n0 s1 s2) (h2 : AgreesBelow n0 s2 s3) :
    AgreesBelow n0 s1 s3 :=
  fun i hi => (h2 i hi).trans (h1 i hi)

theorem agreesBelow_mono {m n0 : Nat} {s1 s2 : Store}
    (h : AgreesBelow m s1 s2) (hle : n0 ≤ m) : AgreesBelow n0 s1 s2 :=
  fun i hi => h i (lt_of_lt_of_le hi hle)

theorem getN_append (s : Store) (t : List NodeObj) (i : Nat)
    (h : i < s.length) : getN (s ++ t) i = getN s i := by
  simp only [getN]
  exact List.getElem?_append_left h

theorem agreesBelow_append {n0 : Nat} (s : Store) (t : List NodeObj)
    (h : n0 ≤ s.length) : AgreesBelow n0 s (s ++ t) :=
  fun i hi => getN_append s t i (lt_of_lt_of_le hi h)

theorem getN_setN_ne (s : Store) (j : Nat) (n : NodeObj) (i : Nat)
    (h : i ≠ j) : getN (setN s j n) i = getN s i := by
  simp only [getN, setN]
  exact List.getElem?_set_ne (fun hji => h hji.symm)

theorem agreesBelow_setN {n0 : Nat} (s : Store) (j : Nat) (n : NodeObj)
    (h : n0 ≤ j) : AgreesBelow n0 s (setN s j n) :=
  fun i hi => getN_setN_ne s j n i (Nat.ne_of_lt (lt_of_lt_of_le hi h))

theorem length_setN (s : Store) (j : Nat) (n : NodeObj) :
    (setN s j n).length = s.length :=
  List.length_set s j n

theorem cleanBelow_of_agrees {n0 : Nat} {s1 s2 : Store}
    (hc : CleanBelow n0 s1) (ha : AgreesBelow n0 s1 s2) :
    CleanBelow n0 s2 := by
  intro i hi n hn
  exact hc i hi n ((ha i hi).symm.trans hn)

theorem getN_lt_length {s : Store} {i : Nat} {n : NodeObj}
    (h : getN s i = some n) : i < s.length := by
  simp only [getN] at h
  exact (List.getElem?_eq_some_iff.mp h).1

/-- The node kinds whose `lazy_clone` returns `self`. -/
def atomicData : NodeData → Bool
  | NodeData.identifier _ => true
  | NodeData.intLit _ => true
  | NodeData.stringLit _ => true
  | NodeData.cloneAttr _ => true
  | _ => false

/-- `lazy_clone` either returns the node itself (atomic) or appends exactly
one fresh copy. -/
theorem lazyClone_cases {s : Store} {i : NodeId} {ov : Overrides}
    {s1 : Store} {j : NodeId} (h : lazyClone s i ov = Except.ok (s1, j)) :
    (s1 = s ∧ j = i ∧ ∃ n, getN s i = some n ∧ atomicData n.data = true) ∨
    (j = s.length ∧ ∃ x, s1 = s ++ [x]) := by
  unfold lazyClone readE at h
  cases hn : getN s i with
  | none =>
    rw [hn] at h
    simp only [Bind.bind, Except.bind] at h
    exact Except.noConfusion h
  | some n =>
    rw [hn] at h
    cases n with
    | mk d t =>
      cases d <;>
        simp only [alloc, Bind.bind, Except.bind, Except.ok.injEq,
          Prod.mk.injEq] at h
      all_goals
        first
        | exact Except.noConfusion h
        | (obtain ⟨h1, h2⟩ := h
           subst h1
           subst h2
           first
           | exact Or.inl ⟨rfl, rfl, _, rfl, rfl⟩
           | exact Or.inr ⟨rfl, _, rfl⟩)

/-- `lazy_clone` never changes a pre-existing node and never shrinks the
store. -/
theorem lazyClone_agrees {s : Store} {i : NodeId} {ov : Overrides}
    {s1 : Store} {j : NodeId} (h : lazyClone s i ov = Except.ok (s1, j)) :
    AgreesBelow s.length s s1 ∧ s.length ≤ s1.length := by
  rcases lazyClone_cases h with ⟨h1, _, _⟩ | ⟨_, x, h1⟩
  · exact h1 ▸ ⟨agreesBelow_refl _ _, le_refl _⟩
  · subst h1
    exact ⟨agreesBelow_append s [x] (le_refl _), by simp⟩

/-- A non-atomic node always clones to the fresh id. -/
theorem lazyClone_fresh {s : Store} {i : NodeId} {ov : Overrides}
    {s1 : Store} {j : NodeId} {n : NodeObj}
    (hn : getN s i = some n) (hna : atomicData n.data = false)
    (h : lazyClone s i ov = Except.ok (s1, j)) : j = s.length := by
  rcases lazyClone_cases h with ⟨_, _, m, hm, hma⟩ | ⟨hj, _⟩
  · rw [hn] at hm
    cases hm
    rw [hma] at hna
    exact absurd hna (by simp)
  · exact hj

/-- `cloneDefs` only appends. -/
theorem cloneDefs_agrees {ds : List (String × NodeId)} :
    ∀ {s : Store} {t : Overrides} {s1 : Store} {ds1 : List (String × NodeId)},
    cloneDefs s ds t = Except.ok (s1, ds1) →
    AgreesBelow s.length s s1 ∧ s.length ≤ s1.length := by
  induction ds with
  | nil =>
    intro s t s1 ds1 h
    unfold cloneDefs at h
    cases h
    exact ⟨agreesBelow_refl _ _, le_refl _⟩
  | cons kv rest ih =>
    intro s t s1 ds1 h
    unfold cloneDefs at h
    cases hc : lazyClone s kv.2 t with
    | error e =>
      rw [hc] at h
      cases kv
      exact absurd h (by simp [Bind.bind, Except.bind])
    | ok p =>
      cases kv with
      | mk k v =>
        rw [hc] at h
        simp only [Bind.bind, Except.bind] at h
        cases hd : cloneDefs p.1 rest t with
        | error e => rw [hd] at h; exact absurd h (by simp)
        | ok q =>
          rw [hd] at h
          simp only [Except.ok.injEq, Prod.mk.injEq] at h
          obtain ⟨h1, _⟩ := h
          obtain ⟨a1, l1⟩ := lazyClone_agrees hc
          obtain ⟨a2, l2⟩ := ih hd
          subst h1
          exact ⟨agreesBelow_trans a1 (agreesBelow_mono a2 l1),
            le_trans l1 l2⟩

/-- `lazyClone_agrees` stated on the un-destructured result pair. -/
theorem lazyClone_agrees2 {s : Store} {i : NodeId} {ov : Overrides}
    {p : Store × NodeId} (h : lazyClone s i ov = Except.ok p) :
    AgreesBelow s.length s p.1 ∧ s.length ≤ p.1.length := by
  cases p with
  | mk s1 j => exact lazyClone_agrees h

/-- `cloneDefs_agrees` stated on the un-destructured result pair. -/
theorem cloneDefs_agrees2 {ds : List (String × NodeId)} {s : Store}
    {t : Overrides} {p : Store × List (String × NodeId)}
    (h : cloneDefs s ds t = Except.ok p) :
    AgreesBelow s.length s p.1 ∧ s.length ≤ p.1.length := by
  cases p with
  | mk s1 ds1 => exact cloneDefs_agrees h

/-- `propagateChildren` only appends to the store. -/
theorem propagateChildren_agrees {s : Store} {t : Overrides} {d : NodeData}
    {p : Store × NodeData} (h : propagateChildren s t d = Except.ok p) :
    AgreesBelow s.length s p.1 ∧ s.length ≤ p.1.length := by
  cases d <;>
    simp only [propagateChildren, Bind.bind, Except.bind] at h
  repeat'
    first
    | split at h
    | (rw [eq_comm] at h
       split at h)
  any_goals exact Except.noConfusion h
  all_goals
    first
    | (cases h
       exact ⟨agreesBelow_refl _ _, le_refl _⟩)
    | (cases h
       rename cloneDefs _ _ _ = Except.ok _ => hr
       rename lazyClone _ _ _ = Except.ok _ => hq
       exact ⟨agreesBelow_trans (lazyClone_agrees2 hq).1
           (agreesBelow_mono (cloneDefs_agrees2 hr).1 (lazyClone_agrees2 hq).2),
         le_trans (lazyClone_agrees2 hq).2 (cloneDefs_agrees2 hr).2⟩)
    | (cases h
       rename lazyClone _ _ _ = Except.ok _ => hq
       exact lazyClone_agrees2 hq)
    | (cases h
       rename cloneDefs _ _ _ = Except.ok _ => hr
       exact cloneDefs_agrees2 hr)

/-- `propagate_clone` leaves every node below `n0` unchanged, provided the
nodes below `n0` carry no truthy table (they are the pre-existing graph). -/
theorem propagateCloneAt_agrees {n0 : Nat} {s : Store} {i : NodeId}
    {s1 : Store} (hlen : n0 ≤ s.length) (hc : CleanBelow n0 s)
    (h : propagateCloneAt s i = Except.ok s1) :
    AgreesBelow n0 s s1 ∧ n0 ≤ s1.length := by
  unfold propagateCloneAt readE at h
  cases hn : getN s i with
  | none =>
    rw [hn] at h
    simp only [Bind.bind, Except.bind] at h
    exact Except.noConfusion h
  | some n =>
    rw [hn] at h
    simp only [Bind.bind, Except.bind] at h
    repeat'
      first
      | split at h
      | (rw [eq_comm] at h
         split at h)
    any_goals exact Except.noConfusion h
    all_goals
      first
      | (cases h
         exact ⟨agreesBelow_refl _ _, hlen⟩)
      | (cases h
         rename propagateChildren _ _ _ = Except.ok _ => hp
         rename NodeObj.cloneOverrides _ = some _ => htab
         rename ¬(_ = ([] : Overrides)) => hne
         rename Overrides => t
         have hi : n0 ≤ i := by
           by_contra hlt
           push_neg at hlt
           have hfl := hc i hlt n hn
           rw [htab] at hfl
           cases t with
           | nil => exact hne rfl
           | cons a as => exact Bool.noConfusion hfl
         exact ⟨agreesBelow_trans
             (agreesBelow_mono (propagateChildren_agrees hp).1 hlen)
             (agreesBelow_setN _ i _ hi),
           by
             rw [length_setN]
             exact le_trans hlen (propagateChildren_agrees hp).2⟩)

/-- `setDefAt` writes only at its target id. -/
theorem setDefAt_agrees {n0 : Nat} {s : Store} {i : NodeId} {k : String}
    {v : NodeId} {s1 : Store} (hlen : n0 ≤ s.length) (hi : n0 ≤ i)
    (h : setDefAt s i k v = Except.ok s1) :
    AgreesBelow n0 s s1 ∧ n0 ≤ s1.length := by
  unfold setDefAt readE at h
  cases hn : getN s i with
  | none =>
    rw [hn] at h
    simp only [Bind.bind, Except.bind] at h
    exact Except.noConfusion h
  | some n =>
    rw [hn] at h
    simp only [Bind.bind, Except.bind] at h
    split at h <;>
      first
      | exact Except.noConfusion h
      | (cases h
         exact ⟨agreesBelow_setN _ i _ hi, by rw [length_setN]; exact hlen⟩)

/-- The defs-writing loop of `_override_after_base` touches only the fresh
clone (and appends). -/
theorem overrideWriteDefs_agrees {ds : List (String × NodeId)} :
    ∀ {n0 : Nat} {s : Store} {c ovId : NodeId} {s1 : Store},
    n0 ≤ s.length → n0 ≤ c →
    overrideWriteDefs s c ovId ds = Except.ok s1 →
    AgreesBelow n0 s s1 ∧ n0 ≤ s1.length := by
  induction ds with
  | nil =>
    intro n0 s c ovId s1 hlen _ h
    unfold overrideWriteDefs at h
    cases h
    exact ⟨agreesBelow_refl _ _, hlen⟩
  | cons kv rest ih =>
    intro n0 s c ovId s1 hlen hcb h
    unfold overrideWriteDefs at h
    cases kv with
    | mk k vid =>
      simp only [Bind.bind, Except.bind] at h
      repeat'
        first
        | split at h
        | (rw [eq_comm] at h
           split at h)
      any_goals exact Except.noConfusion h
      rename lazyClone _ _ _ = Except.ok _ => hq
      rename setDefAt _ _ _ _ = Except.ok _ => hset
      obtain ⟨a1, l1⟩ := lazyClone_agrees2 hq
      obtain ⟨a2, l2⟩ :=
        setDefAt_agrees (le_trans hlen l1) hcb hset
      obtain ⟨a3, l3⟩ := ih l2 hcb h
      exact ⟨agreesBelow_trans (agreesBelow_mono a1 hlen)
          (agreesBelow_trans a2 a3), l3⟩

/-- The CloneAttr aliasing loop touches only the fresh clone. -/
theorem cloneAttrsApply_agrees {pairs : List (String × String)} :
    ∀ {n0 : Nat} {s : Store} {c : NodeId} {s1 : Store},
    n0 ≤ s.length → n0 ≤ c →
    cloneAttrsApply s c pairs = Except.ok s1 →
    AgreesBelow n0 s s1 ∧ n0 ≤ s1.length := by
  induction pairs with
  | nil =>
    intro n0 s c s1 hlen _ h
    unfold cloneAttrsApply at h
    cases h
    exact ⟨agreesBelow_refl _ _, hlen⟩
  | cons kv rest ih =>
    intro n0 s c s1 hlen hcb h
    unfold cloneAttrsApply readE at h
    cases kv with
    | mk target source =>
      simp only [Bind.bind, Except.bind] at h
      repeat'
        first
        | split at h
        | (rw [eq_comm] at h
           split at h)
      any_goals exact Except.noConfusion h
      obtain ⟨a2, l2⟩ := ih (show n0 ≤ (setN s c _).length by
        rw [length_setN]; exact hlen) hcb h
      exact ⟨agreesBelow_trans (agreesBelow_setN _ c _ hcb) a2, l2⟩

theorem agrees_app1 {n0 : Nat} {s : Store} (t : List NodeObj)
    (h : n0 ≤ s.length) :
    AgreesBelow n0 s (s ++ t) ∧ n0 ≤ (s ++ t).length :=
  ⟨agreesBelow_append s t h, by rw [List.length_append]; omega⟩

theorem agrees_app2 {n0 : Nat} {s : Store} (t1 t2 : List NodeObj)
    (h : n0 ≤ s.length) :
    AgreesBelow n0 s ((s ++ t1) ++ t2) ∧ n0 ≤ ((s ++ t1) ++ t2).length := by
  rw [List.append_assoc]
  exact agrees_app1 _ h

theorem stackOk_nil (n0 : Nat) : StackOk n0 [] :=
  fun f hf => absurd hf (List.not_mem_nil f)

theorem stackOk_single {n0 : Nat} {f : Frame} (h : FrameOk n0 f) :
    StackOk n0 [f] := by
  intro g hg
  rw [List.mem_singleton] at hg
  exact hg ▸ h

theorem stackOk_cons {n0 : Nat} {f : Frame} {k : List Frame}
    (hf : FrameOk n0 f) (hk : StackOk n0 k) : StackOk n0 (f :: k) := by
  intro g hg
  rcases List.mem_cons.mp hg with hg | hg
  · exact hg ▸ hf
  · exact hk g hg

theorem stackOk_append {n0 : Nat} {k1 k2 : List Frame}
    (h1 : StackOk n0 k1) (h2 : StackOk n0 k2) : StackOk n0 (k1 ++ k2) := by
  intro g hg
  rcases List.mem_append.mp hg with hg | hg
  · exact h1 g hg
  · exact h2 g hg

theorem stackOk_of_cons {n0 : Nat} {f : Frame} {k : List Frame}
    (h : StackOk n0 (f :: k)) : FrameOk n0 f ∧ StackOk n0 k :=
  ⟨h f (List.mem_cons_self f k), fun g hg => h g (List.mem_cons_of_mem f hg)⟩

/-- `lazyClone_cases` on the un-destructured pair. -/
theorem lazyClone_cases2 {s : Store} {i : NodeId} {ov : Overrides}
    {p : Store × NodeId} (h : lazyClone s i ov = Except.ok p) :
    (p.1 = s ∧ p.2 = i ∧ ∃ n, getN s i = some n ∧ atomicData n.data = true) ∨
    (p.2 = s.length ∧ ∃ x, p.1 = s ++ [x]) := by
  cases p with
  | mk s1 j => exact lazyClone_cases h

/-- `propagate_clone` on an atomic node is the identity. -/
theorem propagateCloneAt_atomic {s : Store} {i : NodeId} {n : NodeObj}
    (hn : getN s i = some n) (hat : atomicData n.data = true) :
    propagateCloneAt s i = Except.ok s := by
  cases n with
  | mk d t =>
    cases d <;> simp only [atomicData] at hat <;>
      first
      | exact Bool.noConfusion hat
      | simp [propagateCloneAt, readE, hn, Bind.bind, Except.bind]

/-- Writing override defs onto an atomic "clone" (the value itself) can
only succeed when there is nothing to write. -/
theorem overrideWriteDefs_atomic {ds : List (String × NodeId)} {s : Store}
    {c ovId : NodeId} {s1 : Store} {n : NodeObj}
    (hn : getN s c = some n) (hat : atomicData n.data = true)
    (h : overrideWriteDefs s c ovId ds = Except.ok s1) : s1 = s := by
  cases ds with
  | nil =>
    unfold overrideWriteDefs at h
    cases h
    rfl
  | cons kv rest =>
    cases kv with
    | mk k vid =>
      unfold overrideWriteDefs at h
      simp only [Bind.bind, Except.bind] at h
      repeat'
        first
        | split at h
        | (rw [eq_comm] at h
           split at h)
      any_goals exact Except.noConfusion h
      rename lazyClone _ _ _ = Except.ok _ => hq
      rename setDefAt _ _ _ _ = Except.ok _ => hset
      exfalso
      have hcb : getN _ c = some n :=
        ((lazyClone_agrees2 hq).1 c (getN_lt_length hn)).trans hn
      unfold setDefAt readE at hset
      rw [hcb] at hset
      simp only [Bind.bind, Except.bind] at hset
      cases n with
      | mk d t =>
        cases d <;> simp only [atomicData] at hat <;>
          first
          | exact Bool.noConfusion hat
          | exact Except.noConfusion hset

/-- Applying one continuation frame never changes a node below `n0`, and
every frame it pushes satisfies `FrameOk`. -/
theorem applyFrame_pres {n0 : Nat} {s : Store} {fr : Frame} {v : NodeId}
    {s1 : Store} {pushes : List Frame} {r : FrameRes}
    (hlen : n0 ≤ s.length) (hc : CleanBelow n0 s) (hf : FrameOk n0 fr)
    (h : applyFrame s fr v = Except.ok (s1, pushes, r)) :
    AgreesBelow n0 s s1 ∧ n0 ≤ s1.length ∧ StackOk n0 pushes := by
  cases fr
  case overrideAfterBase ovId =>
    unfold applyFrame at h
    simp only [Bind.bind, Except.bind] at h
    repeat'
      first
      | split at h
      | (rw [eq_comm] at h
         split at h)
    any_goals exact Except.noConfusion h
    all_goals
      cases h
      rename overrideWriteDefs _ _ _ _ = Except.ok _ => hw
      rename propagateCloneAt _ _ = Except.ok _ => hprop
      rename lazyClone _ _ _ = Except.ok _ => hq
      rcases lazyClone_cases2 hq with ⟨hs, hv2, n2, hn2, hat⟩ | ⟨hj, x, hx⟩
      · rw [hs, hv2] at hprop
        rw [propagateCloneAt_atomic hn2 hat] at hprop
        cases hprop
        rw [hv2] at hw
        rw [overrideWriteDefs_atomic hn2 hat hw]
        exact ⟨agreesBelow_refl _ _, hlen, stackOk_nil _⟩
      · have hl1 : n0 ≤ _ := le_trans hlen (lazyClone_agrees2 hq).2
        have hag1 := agreesBelow_mono (lazyClone_agrees2 hq).1 hlen
        obtain ⟨hag2, hl2⟩ :=
          propagateCloneAt_agrees hl1 (cleanBelow_of_agrees hc hag1) hprop
        have hcb : n0 ≤ _ := hj ▸ hlen
        obtain ⟨hag3, hl3⟩ := overrideWriteDefs_agrees hl2 hcb hw
        exact ⟨agreesBelow_trans hag1 (agreesBelow_trans hag2 hag3), hl3,
          stackOk_nil _⟩
  case eagerEval b attrs =>
    unfold applyFrame at h
    simp only [Bind.bind, Except.bind] at h
    repeat'
      first
      | split at h
      | (rw [eq_comm] at h
         split at h)
    any_goals exact Except.noConfusion h
    all_goals
      cases h
      rename setDefAt _ _ _ _ = Except.ok _ => hset
      rename lazyClone _ _ _ = Except.ok _ => hq
      have hag1 := agreesBelow_mono (lazyClone_agrees2 hq).1 hlen
      have hl1 : n0 ≤ _ := le_trans hlen (lazyClone_agrees2 hq).2
      obtain ⟨hag2, hl2⟩ := setDefAt_agrees hl1 hf hset
      first
      | exact ⟨agreesBelow_trans hag1 hag2, hl2, stackOk_nil _⟩
      | exact ⟨agreesBelow_trans hag1 hag2, hl2, stackOk_single hf⟩
  all_goals
    unfold applyFrame at h
    simp only [alloc, intToBlockNew, intToBlockFromLit, strToBlockNew,
      strToBlockFromLit, Bind.bind, Except.bind] at h
    repeat'
      first
      | split at h
      | (rw [eq_comm] at h
         split at h)
    any_goals exact Except.noConfusion h
    all_goals
      cases h
      first
      | exact ⟨agreesBelow_refl _ _, hlen, stackOk_nil _⟩
      | exact ⟨(agrees_app1 _ hlen).1, (agrees_app1 _ hlen).2, stackOk_nil _⟩
      | exact ⟨(agrees_app1 _ hlen).1, (agrees_app1 _ hlen).2,
          stackOk_single trivial⟩
      | exact ⟨(agrees_app2 _ _ hlen).1, (agrees_app2 _ _ hlen).2,
          stackOk_nil _⟩
      | exact ⟨(agrees_app2 _ _ hlen).1, (agrees_app2 _ _ hlen).2,
          stackOk_single trivial⟩

theorem readE_ok {s : Store} {i : NodeId} {n : NodeObj}
    (h : readE s i = Except.ok n) : getN s i = some n := by
  unfold readE at h
  cases hn : getN s i with
  | none => rw [hn] at h; exact Except.noConfusion h
  | some m => rw [hn] at h; cases h; rfl

/-- `lazyClone_fresh` on the un-destructured pair. -/
theorem lazyClone_fresh2 {s : Store} {i : NodeId} {ov : Overrides}
    {p : Store × NodeId} {n : NodeObj}
    (hn : getN s i = some n) (hna : atomicData n.data = false)
    (h : lazyClone s i ov = Except.ok p) : p.2 = s.length := by
  cases p with
  | mk s1 j => exact lazyClone_fresh hn hna h

/-- The invariant carried by a machine state produced by `stepOnce`. -/
def OutOk (n0 : Nat) (s : Store) : StepOut → Prop
  | StepOut.cont s1 k1 _ =>
    AgreesBelow n0 s s1 ∧ n0 ≤ s1.length ∧ StackOk n0 k1
  | StepOut.final s1 _ => AgreesBelow n0 s s1 ∧ n0 ≤ s1.length

/-- One iteration of the evaluator loop never changes a node below `n0`
and keeps the stack invariant. -/
theorem stepOnce_pres {n0 : Nat} {s : Store} {k : List Frame} {m : Mode}
    {out : StepOut}
    (hlen : n0 ≤ s.length) (hc : CleanBelow n0 s) (hk : StackOk n0 k)
    (h : stepOnce s k m = Except.ok out) : OutOk n0 s out := by
  cases m with
  | deliver v =>
    unfold stepOnce at h
    cases k with
    | nil =>
      cases h
      exact ⟨agreesBelow_refl _ _, hlen⟩
    | cons f rest =>
      simp only [Bind.bind, Except.bind] at h
      repeat'
        first
        | split at h
        | (rw [eq_comm] at h
           split at h)
      any_goals exact Except.noConfusion h
      all_goals
        cases h
        obtain ⟨hfo, hrest⟩ := stackOk_of_cons hk
      · rename applyFrame _ _ _ = Except.ok _ => hap
        obtain ⟨hag, hl, hps⟩ := applyFrame_pres hlen hc hfo hap
        exact ⟨hag, hl, stackOk_append hps hrest⟩
      · rename propagateCloneAt _ _ = Except.ok _ => hpr
        rename applyFrame _ _ _ = Except.ok _ => hap
        obtain ⟨hag, hl, hps⟩ := applyFrame_pres hlen hc hfo hap
        obtain ⟨hag2, hl2⟩ :=
          propagateCloneAt_agrees hl (cleanBelow_of_agrees hc hag) hpr
        exact ⟨agreesBelow_trans hag hag2, hl2, stackOk_append hps hrest⟩
  | descend e =>
    unfold stepOnce at h
    simp only [alloc, Bind.bind, Except.bind] at h
    repeat'
      first
      | split at h
      | (rw [eq_comm] at h
         split at h)
    any_goals exact Except.noConfusion h
    all_goals cases h
    all_goals
      first
      | -- Block with eager keys: clone, propagate, push an eager frame
        (rename blockGetE _ _ _ = Except.ok _ => hbg
         rename propagateCloneAt s _ = Except.ok _ => hpr1
         rename propagateCloneAt _ _ = Except.ok _ => hpr2
         rename lazyClone _ _ _ = Except.ok _ => hq
         rename readE _ _ = Except.ok _ => hrd2
         rename NodeObj.data _ = NodeData.block _ => hdat
         obtain ⟨hag1, hl1⟩ := propagateCloneAt_agrees hlen hc hpr1
         have hc1 := cleanBelow_of_agrees hc hag1
         have hag2 := agreesBelow_mono (lazyClone_agrees2 hq).1 hl1
         have hl2 := le_trans hl1 (lazyClone_agrees2 hq).2
         obtain ⟨hag3, hl3⟩ := propagateCloneAt_agrees hl2
           (cleanBelow_of_agrees hc1 hag2) hpr2
         have hfr : n0 ≤ _ :=
           le_trans hl1 (le_of_eq (lazyClone_fresh2 (readE_ok hrd2)
             (by rw [hdat]; rfl) hq).symm)
         exact ⟨agreesBelow_trans hag1 (agreesBelow_trans hag2 hag3), hl3,
           stackOk_cons hfr hk⟩)
      | -- Block with CloneAttr defs: clone then alias in place
        (rename cloneAttrsApply _ _ _ = Except.ok _ => hca
         rename lazyClone _ _ _ = Except.ok _ => hq
         rename propagateCloneAt s _ = Except.ok _ => hpr1
         rename readE _ _ = Except.ok _ => hrd2
         rename NodeObj.data _ = NodeData.block _ => hdat
         obtain ⟨hag1, hl1⟩ := propagateCloneAt_agrees hlen hc hpr1
         have hag2 := agreesBelow_mono (lazyClone_agrees2 hq).1 hl1
         have hl2 := le_trans hl1 (lazyClone_agrees2 hq).2
         have hfr : n0 ≤ _ :=
           le_trans hl1 (le_of_eq (lazyClone_fresh2 (readE_ok hrd2)
             (by rw [hdat]; rfl) hq).symm)
         obtain ⟨hag3, hl3⟩ := cloneAttrsApply_agrees hl2 hfr hca
         exact ⟨agreesBelow_trans hag1 (agreesBelow_trans hag2 hag3), hl3,
           hk⟩)
      | -- the remaining descend outcomes: at most two fresh `Access`
        -- nodes, at most one pushed (non-eager) frame
        (rename propagateCloneAt s _ = Except.ok _ => hpr1
         obtain ⟨hag, hl⟩ := propagateCloneAt_agrees hlen hc hpr1
         first
         | exact ⟨hag, hl, hk⟩
         | exact ⟨hag, hl, stackOk_cons trivial hk⟩
         | exact ⟨agreesBelow_trans hag (agrees_app1 _ hl).1,
             (agrees_app1 _ hl).2, stackOk_cons trivial hk⟩
         | exact ⟨agreesBelow_trans hag (agrees_app2 _ _ hl).1,
             (agrees_app2 _ _ hl).2, stackOk_cons trivial hk⟩)

/-- The whole evaluator run never changes a node below `n0`. -/
theorem run_agrees {n0 : Nat} : ∀ (fuel : Nat) {s : Store} {k : List Frame}
    {m : Mode} {s1 : Store} {v : NodeId},
    n0 ≤ s.length → CleanBelow n0 s → StackOk n0 k →
    run fuel s k m = Except.ok (s1, v) →
    AgreesBelow n0 s s1 ∧ n0 ≤ s1.length := by
  intro fuel
  induction fuel with
  | zero =>
    intro s k m s1 v _ _ _ h
    exact Except.noConfusion h
  | succ f ih =>
    intro s k m s1 v hlen hc hk h
    unfold run at h
    simp only [Bind.bind, Except.bind] at h
    cases hst : stepOnce s k m with
    | error e =>
      rw [hst] at h
      exact Except.noConfusion h
    | ok o =>
      rw [hst] at h
      cases o with
      | final s2 v2 =>
        cases h
        exact stepOnce_pres hlen hc hk hst
      | cont s2 k2 m2 =>
        obtain ⟨hag, hl, hk2⟩ :
            AgreesBelow n0 s s2 ∧ n0 ≤ s2.length ∧ StackOk n0 k2 :=
          stepOnce_pres hlen hc hk hst
        obtain ⟨hag2, hl2⟩ := ih hl (cleanBelow_of_agrees hc hag) hk2 h
        exact ⟨agreesBelow_trans hag hag2, hl2⟩

/-!  Claim theorems.  -/

/-- The graph the evaluator sees for `"foo".len`: a string block built by
`str_to_block` and an attribute access on `len`. -/
def strLenProg (v : String) : Store × NodeId :=
  let (s, sb) := strToBlockNew [] v
  alloc s ⟨NodeData.accessNode sb "len", none⟩

set_option maxRecDepth 10000 in
set_option maxHeartbeats 2000000 in
/-- **C1** (code bug).  Evaluating `s.len` on a string block does not
produce an int block: it raises `block_get`'s `KeyError` for key `"x"`
(here at the failing input `"foo"`, but nothing in the trace depends on
the text).  The `StrLen` case of the evaluator reads
`Access(Access(expr.context, "x"), "_inner")`, but `str_to_block` wires
`len = StrLen(context=BackEdge(string block))`, and the string block has
no attribute `x` (its keys are `_inner cat add len substr le ge eq ne lt
gt`).  The spec's `StrLen` row and its `c.chr.len == 1` property describe
the evident intent, so the code is in error. -/
theorem strlen_raises_missing_x :
    evaluateResult 20 (strLenProg "foo").1 (strLenProg "foo").2
      = Except.error (Err.missingKey "x") := rfl

/-- A store holding just an `AncestorLookup("a")` node. -/
def ancestorProbe : Store := [⟨NodeData.ancestorLookup "a", none⟩]

/-- **C2** (code bug).  Preprocessing `AncestorLookup("a")` under the
ancestor stack `[outer(id 0, defines a), mid(id 1, defines a), self(id 2)]`
rewrites to an `Access` through a `BackEdge` to id 0 — the OUTERMOST
strict ancestor defining `a` — because the scan over `parents[:-1][::-1]`
keeps overwriting `found_parent` without breaking, so the last hit
(outermost) wins.  The claim (and spec) say the NEAREST strict ancestor,
which is id 1.  The second conjunct confirms the failure when no ancestor
defines the name. -/
theorem ancestor_lookup_picks_outermost :
    (preprocessF 10 [(0, ["a"]), (1, ["a"]), (2, [])] ancestorProbe 0
      = Except.ok (ancestorProbe ++
          [⟨NodeData.backEdge 0, none⟩, ⟨NodeData.accessNode 1 "a", none⟩],
          2))
    ∧ preprocessF 10 [(0, []), (1, [])] ancestorProbe 0
        = Except.error (Err.ancestorNotFound "a") :=
  ⟨rfl, rfl⟩

/-- **C9** (confirmed).  Preprocessing `Parent(d)` under an ancestor stack
of length `L` yields a fresh `BackEdge` to the ancestor at distance `d+1`
from the end when `d+1 ≤ L`, and fails (the assertion
`expr.depth + 1 <= len(parents)`) when `d+1 > L`. -/
theorem parent_backedge (fuel : Nat) (parents : List (NodeId × List String))
    (s : Store) (e : NodeId) (d : Nat) (t : Option Overrides)
    (hn : getN s e = some ⟨NodeData.parentNode d, t⟩) :
    (d + 1 ≤ parents.length →
      preprocessF (fuel + 1) parents s e
        = Except.ok (s ++ [⟨NodeData.backEdge
            (parents.getD (parents.length - (d + 1)) (0, [])).1, none⟩],
            s.length))
    ∧ (parents.length < d + 1 →
      preprocessF (fuel + 1) parents s e = Except.error Err.parentDepth) := by
  constructor
  · intro h
    unfold preprocessF readE
    rw [hn]
    simp only [Bind.bind, Except.bind]
    rw [if_pos h]
    rw [show parents[parents.length - (d + 1)]?
        = some (parents.getD (parents.length - (d + 1)) (0, [])) from ?_]
    · rfl
    · rw [List.getD_eq_getElem?_getD, List.getElem?_eq_getElem (by omega)]
      rfl
  · intro h
    unfold preprocessF readE
    rw [hn]
    simp only [Bind.bind, Except.bind]
    rw [if_neg (by omega)]

/-- Witness for `parent_backedge` at a concrete stack and depth. -/
theorem parent_backedge_witness :
    (preprocessF 4 [(7, []), (8, []), (9, [])]
        [⟨NodeData.parentNode 1, none⟩] 0
      = Except.ok ([⟨NodeData.parentNode 1, none⟩,
          ⟨NodeData.backEdge 8, none⟩], 1))
    ∧ preprocessF 4 [(7, [])] [⟨NodeData.parentNode 1, none⟩] 0
        = Except.error Err.parentDepth := by
  have h := parent_backedge 3 [(7, []), (8, []), (9, [])]
    [⟨NodeData.parentNode 1, none⟩] 0 1 none rfl
  have h2 := parent_backedge 3 [(7, [])]
    [⟨NodeData.parentNode 1, none⟩] 0 1 none rfl
  exact ⟨h.1 (by decide), h2.2 (by decide)⟩

/-- The graph for `a.div[y=0].result` (and `mod`): `int_to_block(a)`, an
access to the method, an override binding `y` to `int_to_block(0)`, and
the access to `result`. -/
def intZeroDivProg (method : String) (a : Int) : Store × NodeId :=
  let (s, ibx) := intToBlockNew [] a
  let (s, d1) := alloc s ⟨NodeData.accessNode ibx method, none⟩
  let (s, ib0) := intToBlockNew s 0
  let (s, ov) := alloc s ⟨NodeData.overrideNode d1 [("y", ib0)], none⟩
  alloc s ⟨NodeData.accessNode ov "result", none⟩

set_option maxRecDepth 10000 in
set_option maxHeartbeats 4000000 in
/-- **C10** (confirmed).  The `div` and `mod` closures installed by
`int_to_block` are unguarded Python `x // y` / `x % y`, so for EVERY pair
of operand values with `y = 0` the applied operation raises
`ZeroDivisionError` rather than returning a value (first conjunct, over
the `fn` application done by `_intop_apply`); end to end, evaluating
`7.div[y=0].result` and `7.mod[y=0].result` raises that error (remaining
conjuncts). -/
theorem div_mod_by_zero_raise :
    (∀ x y : Int, y = 0 →
      intFnApply IntFn.div x y = Except.error Err.zeroDivision
      ∧ intFnApply IntFn.mod x y = Except.error Err.zeroDivision)
    ∧ evaluateResult 60 (intZeroDivProg "div" 7).1
        (intZeroDivProg "div" 7).2 = Except.error Err.zeroDivision
    ∧ evaluateResult 60 (intZeroDivProg "mod" 7).1
        (intZeroDivProg "mod" 7).2 = Except.error Err.zeroDivision := by
  refine ⟨?_, rfl, rfl⟩
  intro x y hy
  subst hy
  exact ⟨rfl, rfl⟩

/-- Witness for the universal conjunct of `div_mod_by_zero_raise`. -/
theorem div_mod_by_zero_raise_witness :
    intFnApply IntFn.div 7 0 = Except.error Err.zeroDivision
    ∧ intFnApply IntFn.mod 7 0 = Except.error Err.zeroDivision :=
  div_mod_by_zero_raise.1 7 0 rfl

/-- A preprocessed-style block with two `Eager` definitions
`{ p := int_block(1), q := int_block(2) }`. -/
def eagerPairBlock : Store × NodeId :=
  let (s, ib1) := intToBlockNew [] 1
  let (s, ib2) := intToBlockNew s 2
  let (s, e1) := alloc s ⟨NodeData.eagerNode ib1, none⟩
  let (s, e2) := alloc s ⟨NodeData.eagerNode ib2, none⟩
  alloc s ⟨NodeData.block [("p", e1), ("q", e2)], none⟩

/-- After five machine iterations on `eagerPairBlock` the `eager_eval`
frames are exhausted and the clone is emitted as the current expression
(empty stack, descend mode), with `p` holding the (lazy-cloned) reduced
int block but `q` STILL holding an unreduced `Eager` node. -/
def c5EmittedUnreduced : Bool :=
  match stepIter 5 eagerPairBlock.1 [] (Mode.descend eagerPairBlock.2) with
  | Except.ok (StepOut.cont s [] (Mode.descend c)) =>
    match getN s c with
    | some ⟨NodeData.block ds, _⟩ =>
      (match defsGet ds "p" with
       | some pid =>
         match getN s pid with
         | some ⟨NodeData.block pds, _⟩ => (defsGet pds "_inner").isSome
         | _ => false
       | none => false)
      && (match defsGet ds "q" with
       | some qid =>
         match getN s qid with
         | some ⟨NodeData.eagerNode _, _⟩ => true
         | _ => false
       | none => false)
    | _ => false
  | _ => false

set_option maxRecDepth 10000 in
set_option maxHeartbeats 2000000 in
/-- **C5 counterexample.**  On a block with two `Eager` definitions, when
the evaluator's `eager_eval` frame list is exhausted and the clone is
emitted, the second eagerly-defined attribute does NOT hold its reduced
value: `_eager_eval` returns the next key's stored definition in the
VALUE slot of `(expr, value)`, so the freshly pushed frame immediately
stores that unreduced `Eager` node back (`block.defs[attrs[0]] =
value.lazy_clone()`).  This refutes "on each resume, store the reduced
value ... so in the emitted block every eagerly-defined attribute holds
its fully reduced value". -/
theorem eager_second_key_unreduced : c5EmittedUnreduced = true := rfl

/-- The final result of evaluating `eagerPairBlock`, checked to be a block
whose two eagerly-defined attributes hold (clones of) fully reduced int
blocks with `_inner` 1 and 2; and the step-5 state, checked to be a
re-visit of the emitted clone (empty stack, descend mode). -/
def c5FinalReduced : Bool :=
  (match run 40 eagerPairBlock.1 [] (Mode.descend eagerPairBlock.2) with
  | Except.ok (s, v) =>
    match getN s v with
    | some ⟨NodeData.block ds, _⟩ =>
      (match defsGet ds "p" with
       | some pid =>
         match getN s pid with
         | some ⟨NodeData.block pds, _⟩ =>
           match defsGet pds "_inner" with
           | some ii =>
             match getN s ii with
             | some ⟨NodeData.intLit n, _⟩ => n == 1
             | _ => false
           | none => false
         | _ => false
       | none => false)
      && (match defsGet ds "q" with
       | some qid =>
         match getN s qid with
         | some ⟨NodeData.block qds, _⟩ =>
           match defsGet qds "_inner" with
           | some ii =>
             match getN s ii with
             | some ⟨NodeData.intLit n, _⟩ => n == 2
             | _ => false
           | none => false
         | _ => false
       | none => false)
    | _ => false
  | Except.error _ => false)
  && (match stepIter 5 eagerPairBlock.1 [] (Mode.descend eagerPairBlock.2) with
  | Except.ok (StepOut.cont _ [] (Mode.descend _)) => true
  | _ => false)

set_option maxRecDepth 10000 in
set_option maxHeartbeats 2000000 in
/-- **C5 amended.**  On each pass over a block with pending `Eager`
definitions only the FIRST eager key's value is reduced and stored
(lazy-cloned); each later key is re-stored unreduced, and the emitted
clone is re-visited as the current expression, starting another pass —
one eager key is reduced per pass until none remain, so in the FINAL
emitted block every eagerly-defined attribute holds its fully reduced
value. -/
theorem eager_one_key_per_pass : c5FinalReduced = true := rfl

/-- `program_result` followed by projection of the result's `_inner`
data (the primitive the program computes). -/
def programInner (fuel : Nat) (s : Store) (m : NodeId) :
    Except Err NodeData := do
  let (s1, v) ← programResult fuel s m
  let innerId ← blockGetE s1 v "_inner"
  let n ← readE s1 innerId
  Except.ok n.data

/-- The surface module `result = LIT.METHOD[y=^.boom].result` with `boom`
undefined anywhere (`^.boom` parses to `Access(Parent(1), "boom")`). -/
def boomModule (lit : Int) (method : String) : Store × NodeId :=
  let (s, l0) := alloc [] ⟨NodeData.intLit lit, none⟩
  let (s, a1) := alloc s ⟨NodeData.accessNode l0 method, none⟩
  let (s, p) := alloc s ⟨NodeData.parentNode 1, none⟩
  let (s, ab) := alloc s ⟨NodeData.accessNode p "boom", none⟩
  let (s, ov) := alloc s ⟨NodeData.overrideNode a1 [("y", ab)], none⟩
  let (s, a2) := alloc s ⟨NodeData.accessNode ov "result", none⟩
  alloc s ⟨NodeData.block [("result", a2)], none⟩

set_option maxRecDepth 10000 in
set_option maxHeartbeats 4000000 in
/-- **C6** (confirmed).  First conjunct: whenever the reduced `x._inner`
of `IntLogicalAnd`/`IntLogicalOr` is decisive (zero for AND, nonzero for
OR), the continuation returns `int_to_block(x)` immediately — it never
builds the `Access(context, "y")` expression, so `y` is not reduced (the
result does not depend on the frame's `exprId` or on anything else in the
store).  End to end: `result = 0.logical_and[y=^.boom].result` with
`boom` undefined evaluates to the int 0 with no reference error, and
dually `result = 5.logical_or[y=^.boom].result` evaluates to 5. -/
theorem logical_short_circuit :
    (∀ (s : Store) (exprId v : NodeId) (isOr : Bool) (x : Int)
        (t : Option Overrides),
      getN s v = some ⟨NodeData.intLit x, t⟩ →
      logicalDecisive isOr x = true →
      applyFrame s (Frame.logicalAfterX exprId isOr) v
        = Except.ok ((intToBlockFromLit s v).1, [],
            FrameRes.toValue (intToBlockFromLit s v).2))
    ∧ programInner 100 (boomModule 0 "logical_and").1
        (boomModule 0 "logical_and").2 = Except.ok (NodeData.intLit 0)
    ∧ programInner 100 (boomModule 5 "logical_or").1
        (boomModule 5 "logical_or").2 = Except.ok (NodeData.intLit 5) := by
  refine ⟨?_, rfl, rfl⟩
  intro s exprId v isOr x t hn hd
  simp [applyFrame, asIntLit, readE, hn, hd, Bind.bind, Except.bind]

/-- Witness for the universal conjunct of `logical_short_circuit`:
a decisive AND argument (`x = 0`) short-circuits at a concrete store. -/
theorem logical_short_circuit_witness :
    applyFrame [⟨NodeData.intLit 0, none⟩]
        (Frame.logicalAfterX 5 false) 0
      = Except.ok ((intToBlockFromLit [⟨NodeData.intLit 0, none⟩] 0).1, [],
          FrameRes.toValue
            (intToBlockFromLit [⟨NodeData.intLit 0, none⟩] 0).2) :=
  logical_short_circuit.1 [⟨NodeData.intLit 0, none⟩] 5 0 false 0 none
    rfl rfl

/-- The surface AST of the one-line program `result = 2.add[y=3].result`. -/
def addExample : Store × NodeId :=
  let (s, l2) := alloc [] ⟨NodeData.intLit 2, none⟩
  let (s, a1) := alloc s ⟨NodeData.accessNode l2 "add", none⟩
  let (s, l3) := alloc s ⟨NodeData.intLit 3, none⟩
  let (s, ov) := alloc s ⟨NodeData.overrideNode a1 [("y", l3)], none⟩
  let (s, a2) := alloc s ⟨NodeData.accessNode ov "result", none⟩
  alloc s ⟨NodeData.block [("result", a2)], none⟩

set_option maxRecDepth 10000 in
set_option maxHeartbeats 4000000 in
/-- **C3 counterexample.**  The CLI does not print the textual
representation of the primitive: `run.py` passes the `_inner` NODE to
`print`, so the one-line program `result = 2.add[y=3].result` prints the
dataclass repr `IntLit(value=5)`, not `5`. -/
theorem cli_prints_node_repr_counterexample :
    cliOutput 100 addExample.1 addExample.2 = Except.ok "IntLit(value=5)"
    ∧ cliOutput 100 addExample.1 addExample.2 ≠ Except.ok "5" := by
  constructor
  · rfl
  · intro hcon
    have h5 : ("IntLit(value=5)" : String) = "5" :=
      Except.ok.inj ((show cliOutput 100 addExample.1 addExample.2
        = Except.ok "IntLit(value=5)" from rfl).symm.trans hcon)
    exact absurd h5 (by decide)

/-- Extract the store of a successful evaluation (for stating witnesses). -/
def okStore (r : Except Err (Store × NodeId)) : Store :=
  match r with
  | Except.ok p => p.1
  | Except.error _ => []

/-- Extract the result id of a successful evaluation. -/
def okId (r : Except Err (Store × NodeId)) : NodeId :=
  match r with
  | Except.ok p => p.2
  | Except.error _ => 0

/-- Extract the id of a successful `block_get`. -/
def okKey (r : Except Err NodeId) : NodeId :=
  match r with
  | Except.ok i => i
  | Except.error _ => 0

/-- The surface AST of the one-line program
`result = "foo".cat[y="bar"].result`. -/
def strCatExample : Store × NodeId :=
  let (s, l1) := alloc [] ⟨NodeData.stringLit "foo", none⟩
  let (s, a1) := alloc s ⟨NodeData.accessNode l1 "cat", none⟩
  let (s, l2) := alloc s ⟨NodeData.stringLit "bar", none⟩
  let (s, ov) := alloc s ⟨NodeData.overrideNode a1 [("y", l2)], none⟩
  let (s, a2) := alloc s ⟨NodeData.accessNode ov "result", none⟩
  alloc s ⟨NodeData.block [("result", a2)], none⟩

/-- **C3 amended, theorem.**  For every source module that evaluates
successfully, the CLI passes the node carried by the result block's
`_inner` attribute to `print` and so emits that node's dataclass repr —
`IntLit(value=<n>)` when `_inner` holds an `IntLit n`,
`StringLit(value=<Python repr of s>)` when it holds a `StringLit s` —
never the bare primitive text; and when `block_get` raises `KeyError`
for `_inner`, it prints the dataclass repr of the result block
itself. -/
theorem cli_prints_inner_repr (fuel : Nat) (s : Store) (m : NodeId)
    (s1 : Store) (rb : NodeId)
    (h1 : programResult fuel s m = Except.ok (s1, rb)) :
    (∀ innerId d t, blockGetE s1 rb "_inner" = Except.ok innerId →
      getN s1 innerId = some ⟨d, t⟩ →
      cliOutput fuel s m = pyReprNode fuel s1 innerId ∧
      (∀ v, d = NodeData.intLit v →
        cliOutput fuel s m =
          Except.ok ("IntLit(value=" ++ toString v ++ ")")) ∧
      (∀ w, d = NodeData.stringLit w →
        cliOutput fuel s m =
          Except.ok ("StringLit(value=" ++ pyStrRepr w ++ ")"))) ∧
    (∀ k, blockGetE s1 rb "_inner" = Except.error (Err.missingKey k) →
      cliOutput fuel s m = pyReprNode fuel s1 rb) := by
  cases fuel with
  | zero =>
    rw [show programResult 0 s m = Except.error Err.fuelOut from rfl] at h1
    exact Except.noConfusion h1
  | succ f =>
    have hcli0 : cliOutput (f + 1) s m =
        match blockGetE s1 rb "_inner" with
        | Except.ok innerId => pyReprNode (f + 1) s1 innerId
        | Except.error (Err.missingKey _) => pyReprNode (f + 1) s1 rb
        | Except.error e => Except.error e := by
      simp [cliOutput, h1, Bind.bind, Except.bind]
    constructor
    · intro innerId d t h2 h3
      have hcli : cliOutput (f + 1) s m = pyReprNode (f + 1) s1 innerId := by
        rw [hcli0, h2]
      refine ⟨hcli, ?_, ?_⟩
      · intro v hv
        subst hv
        rw [hcli]
        simp [pyReprNode, readE, h3, Bind.bind, Except.bind]
      · intro w hw
        subst hw
        rw [hcli]
        simp [pyReprNode, readE, h3, Bind.bind, Except.bind]
    · intro k h2
      rw [hcli0, h2]

set_option maxRecDepth 10000 in
set_option maxHeartbeats 32000000 in
/-- Witness for `cli_prints_inner_repr` at the programs
`result = 2.add[y=3].result` (an `IntLit` result) and
`result = "foo".cat[y="bar"].result` (a `StringLit` result). -/
theorem cli_prints_inner_repr_witness :
    cliOutput 100 addExample.1 addExample.2
      = Except.ok ("IntLit(value=" ++ toString (5 : Int) ++ ")") ∧
    cliOutput 100 strCatExample.1 strCatExample.2
      = Except.ok ("StringLit(value=" ++ pyStrRepr "foobar" ++ ")") :=
  ⟨((cli_prints_inner_repr 100 addExample.1 addExample.2
      (okStore (programResult 100 addExample.1 addExample.2))
      (okId (programResult 100 addExample.1 addExample.2))
      rfl).1
      (okKey (blockGetE
        (okStore (programResult 100 addExample.1 addExample.2))
        (okId (programResult 100 addExample.1 addExample.2)) "_inner"))
      (NodeData.intLit 5) none rfl rfl).2.1 5 rfl,
   ((cli_prints_inner_repr 100 strCatExample.1 strCatExample.2
      (okStore (programResult 100 strCatExample.1 strCatExample.2))
      (okId (programResult 100 strCatExample.1 strCatExample.2))
      rfl).1
      (okKey (blockGetE
        (okStore (programResult 100 strCatExample.1 strCatExample.2))
        (okId (programResult 100 strCatExample.1 strCatExample.2)) "_inner"))
      (NodeData.stringLit "foobar") none rfl rfl).2.2 "foobar" rfl⟩

/-- A store whose prefix is pointwise preserved and long enough has that
prefix as its `take`. -/
theorem take_eq_of_agrees {s0 s2 : Store}
    (ha : AgreesBelow s0.length s0 s2) : s2.take s0.length = s0 := by
  apply List.ext_getElem?
  intro i
  rw [List.getElem?_take]
  by_cases hi : i < s0.length
  · rw [if_pos hi]
    exact ha i hi
  · rw [if_neg hi]
    symm
    exact List.getElem?_eq_none (by omega)

/-- **C7** (confirmed).  Evaluating any expression of a pristine graph
(every node's clone table is `None` — the state `preprocess` leaves the
program in), and then evaluating any second expression (in particular an
override `B[x=v]` of a block `B` of the graph), leaves every original
node — its kind, children, defs and clone table — unchanged; hence
re-evaluating `B` over the surviving original graph is literally the same
evaluation as before the override ran, and yields the same result. -/
theorem override_independence (fuel1 fuel2 : Nat) (s0 : Store)
    (bId ovId : NodeId) (s1 s2 : Store) (r1 r2 : NodeId)
    (hp : ∀ i n, getN s0 i = some n → n.cloneOverrides = none)
    (h1 : evaluateResult fuel1 s0 bId = Except.ok (s1, r1))
    (h2 : evaluateResult fuel2 s1 ovId = Except.ok (s2, r2)) :
    (∀ i, i < s0.length → getN s2 i = getN s0 i)
    ∧ (∀ fuel3, evaluateResult fuel3 (s2.take s0.length) bId
        = evaluateResult fuel3 s0 bId) := by
  have hc0 : CleanBelow s0.length s0 := by
    intro i _ n hn
    rw [hp i n hn]
    rfl
  obtain ⟨ha1, hl1⟩ :=
    run_agrees fuel1 (le_refl _) hc0 (stackOk_nil _) h1
  obtain ⟨ha2, hl2⟩ :=
    run_agrees fuel2 hl1 (cleanBelow_of_agrees hc0 ha1) (stackOk_nil _) h2
  have ha : AgreesBelow s0.length s0 s2 := agreesBelow_trans ha1 ha2
  refine ⟨ha, ?_⟩
  intro fuel3
  rw [take_eq_of_agrees ha]

/-- A tiny pristine graph for the witness: an `IntLit`, a block `B`, and
an override `B[y=...]` of it. -/
def c7Graph : Store :=
  [⟨NodeData.intLit 5, none⟩,
   ⟨NodeData.block [("a", 0)], none⟩,
   ⟨NodeData.overrideNode 1 [("y", 0)], none⟩]

set_option maxRecDepth 10000 in
/-- Witness for `override_independence`: evaluate `B` (id 1), then the
override node (id 2); `B` reads back unchanged and re-evaluating it over
the surviving prefix is the original evaluation. -/
theorem override_independence_witness :
    getN (okStore (evaluateResult 30
        (okStore (evaluateResult 10 c7Graph 1)) 2)) 1
      = getN c7Graph 1
    ∧ evaluateResult 10
        ((okStore (evaluateResult 30
          (okStore (evaluateResult 10 c7Graph 1)) 2)).take c7Graph.length) 1
      = evaluateResult 10 c7Graph 1 := by
  have h := override_independence 10 30 c7Graph 1 2
    (okStore (evaluateResult 10 c7Graph 1))
    (okStore (evaluateResult 30 (okStore (evaluateResult 10 c7Graph 1)) 2))
    (okId (evaluateResult 10 c7Graph 1))
    (okId (evaluateResult 30 (okStore (evaluateResult 10 c7Graph 1)) 2))
    (by
      intro i n hn
      match i, hn with
      | 0, hn => cases hn; rfl
      | 1, hn => cases hn; rfl
      | 2, hn => cases hn; rfl
      | (k + 3), hn => exact Option.noConfusion hn)
    rfl rfl
  exact ⟨h.1 1 (by decide), h.2 10⟩

theorem agrees_step {n0 : Nat} {s sa sb : Store}
    (h1 : AgreesBelow n0 s sa) (hl1 : n0 ≤ sa.length)
    (h2 : AgreesBelow sa.length sa sb) (hl2 : sa.length ≤ sb.length) :
    AgreesBelow n0 s sb ∧ n0 ≤ sb.length :=
  ⟨agreesBelow_trans h1 (agreesBelow_mono h2 hl1), le_trans hl1 hl2⟩

theorem agrees_app3 {n0 : Nat} {s : Store} (t1 t2 t3 : List NodeObj)
    (h : n0 ≤ s.length) :
    AgreesBelow n0 s (((s ++ t1) ++ t2) ++ t3)
      ∧ n0 ≤ (((s ++ t1) ++ t2) ++ t3).length := by
  rw [List.append_assoc, List.append_assoc]
  exact agrees_app1 _ h

/-- `prepDefs` preserves the prefix whenever the per-definition function
does. -/
theorem prepDefs_agrees {go : Store → NodeId → Except Err (Store × NodeId)}
    (hgo : ∀ s e p, go s e = Except.ok p →
      AgreesBelow s.length s p.1 ∧ s.length ≤ p.1.length) :
    ∀ {ds : List (String × NodeId)} {s : Store}
      {q : Store × List (String × NodeId)},
    prepDefs go s ds = Except.ok q →
    AgreesBelow s.length s q.1 ∧ s.length ≤ q.1.length := by
  intro ds
  induction ds with
  | nil =>
    intro s q h
    unfold prepDefs at h
    cases h
    exact ⟨agreesBelow_refl _ _, le_refl _⟩
  | cons kv rest ih =>
    intro s q h
    cases kv with
    | mk k v =>
      unfold prepDefs at h
      simp only [Bind.bind, Except.bind] at h
      repeat'
        first
        | split at h
        | (rw [eq_comm] at h
           split at h)
      any_goals exact Except.noConfusion h
      cases h
      rename prepDefs _ _ _ = Except.ok _ => hpd
      rename go _ _ = Except.ok _ => hg
      obtain ⟨a1, l1⟩ := hgo _ _ _ hg
      obtain ⟨a2, l2⟩ := ih hpd
      exact agrees_step a1 l1 a2 l2

/-- `preprocess` never mutates a pre-existing node: all its writes target
the placeholder blocks it freshly allocates. -/
theorem preprocessF_agrees : ∀ (fuel : Nat)
    {parents : List (NodeId × List String)} {s : Store} {e : NodeId}
    {s1 : Store} {j : NodeId},
    preprocessF fuel parents s e = Except.ok (s1, j) →
    AgreesBelow s.length s s1 ∧ s.length ≤ s1.length := by
  intro fuel
  induction fuel with
  | zero =>
    intro parents s e s1 j h
    exact Except.noConfusion h
  | succ f ih =>
    intro parents s e s1 j h
    unfold preprocessF readE at h
    cases hn : getN s e with
    | none =>
      rw [hn] at h
      simp only [Bind.bind, Except.bind] at h
      exact Except.noConfusion h
    | some n =>
      rw [hn] at h
      simp only [alloc, intToBlockFromLit, strToBlockFromLit, Bind.bind,
        Except.bind] at h
      repeat'
        first
        | split at h
        | (rw [eq_comm] at h
           split at h)
      any_goals exact Except.noConfusion h
      all_goals
        first
        -- binaryOp / conditional: three fresh nodes, then recurse
        | (refine agrees_step (agrees_app3 _ _ _ (le_refl _)).1
            (agrees_app3 _ _ _ (le_refl _)).2 (ih h).1 (ih h).2)
        -- identifier: two fresh nodes, then recurse
        | (refine agrees_step (agrees_app2 _ _ (le_refl _)).1
            (agrees_app2 _ _ (le_refl _)).2 (ih h).1 (ih h).2)
        | (cases h
           first
           -- CloneAttr: unchanged
           | exact ⟨agreesBelow_refl _ _, le_refl _⟩
           -- Parent / SelfRef / AncestorLookup / literals: appends only
           | exact agrees_app1 _ (le_refl _)
           | exact agrees_app2 _ _ (le_refl _)
           -- Access / Eager: recurse then one fresh node
           | (rename preprocessF _ _ _ _ = Except.ok _ => hq
              exact agrees_step (ih hq).1 (ih hq).2
                (agreesBelow_append _ _ (le_refl _)) (by simp))
           -- Call: recurse on base, then defs, then one fresh node
           | (rename prepDefs _ _ _ = Except.ok _ => hpd
              rename preprocessF _ _ _ _ = Except.ok _ => hq
              obtain ⟨a1, l1⟩ := ih hq
              obtain ⟨a2, l2⟩ := prepDefs_agrees (fun s e p hp => ih hp) hpd
              obtain ⟨a3, l3⟩ := agrees_step a1 l1 a2 l2
              exact agrees_step a3 l3
                (agreesBelow_append _ _ (le_refl _)) (by simp))
           -- Override: placeholder, base, defs, write the placeholder
           | (rename prepDefs _ _ _ = Except.ok _ => hpd
              rename preprocessF _ _ _ _ = Except.ok _ => hq
              obtain ⟨a1, l1⟩ := ih hq
              obtain ⟨a2, l2⟩ := prepDefs_agrees (fun s e p hp => ih hp) hpd
              obtain ⟨a3, l3⟩ := agrees_step
                (agreesBelow_append s [_] (le_refl _)) (by simp) a1 l1
              obtain ⟨a4, l4⟩ := agrees_step a3 l3 a2 l2
              refine ⟨agreesBelow_trans a4
                (agreesBelow_setN _ _ _ (le_refl _)), ?_⟩
              rw [length_setN]
              exact l4)
           -- Block: placeholder append, defs, write the placeholder
           | (rename prepDefs _ _ _ = Except.ok _ => hpd
              obtain ⟨a2, l2⟩ := prepDefs_agrees (fun s e p hp => ih hp) hpd
              obtain ⟨a3, l3⟩ := agrees_step
                (agreesBelow_append s [_] (le_refl _)) (by simp) a2 l2
              refine ⟨agreesBelow_trans a3
                (agreesBelow_setN _ _ _ (le_refl _)), ?_⟩
              rw [length_setN]
              exact l3))

/-- The tree shape of a graph built from the node kinds that `preprocess`
maps structurally: `Block`, `Override`, `Call`, `Access`, `Eager`,
`CloneAttr` — no surface nodes, no literals, no back-edges, no
built-ins. -/
inductive Shape
  | blockS (ds : List (String × Shape))
  | overrideS (base : Shape) (ds : List (String × Shape))
  | callS (base : Shape) (ds : List (String × Shape))
  | accessS (base : Shape) (attr : String)
  | eagerS (base : Shape)
  | cloneAttrS (attr : String)

/-- Shapes of the values of a defs dictionary. -/
def shapeDefs (go : NodeId → Option Shape) :
    List (String × NodeId) → Option (List (String × Shape))
  | [] => some []
  | (k, v) :: rest => do
    let sh ← go v
    let r ← shapeDefs go rest
    some ((k, sh) :: r)

/-- `shapeFrom f s bad i`: the shape of the subgraph at `i`, defined when
the traversal stays within the allowed kinds, never meets an id in `bad`,
and the depth is below `f`. -/
def shapeFrom : Nat → Store → List NodeId → NodeId → Option Shape
  | 0, _, _, _ => none
  | f + 1, s, bad, i =>
    if bad.contains i then none
    else
      match getN s i with
      | none => none
      | some n =>
        match n.data with
        | NodeData.block ds =>
          (shapeDefs (shapeFrom f s bad) ds).map Shape.blockS
        | NodeData.overrideNode b ds => do
          let sb ← shapeFrom f s bad b
          let r ← shapeDefs (shapeFrom f s bad) ds
          some (Shape.overrideS sb r)
        | NodeData.callNode b ds => do
          let sb ← shapeFrom f s bad b
          let r ← shapeDefs (shapeFrom f s bad) ds
          some (Shape.callS sb r)
        | NodeData.accessNode b a =>
          (shapeFrom f s bad b).map (fun sb => Shape.accessS sb a)
        | NodeData.eagerNode b =>
          (shapeFrom f s bad b).map Shape.eagerS
        | NodeData.cloneAttr a => some (Shape.cloneAttrS a)
        | _ => none

/-- `shapeDefs` respects pointwise refinement of its traversal. -/
theorem shapeDefs_congr {go go' : NodeId → Option Shape}
    (hgo : ∀ v sh, go v = some sh → go' v = some sh) :
    ∀ {ds : List (String × NodeId)} {shds : List (String × Shape)},
    shapeDefs go ds = some shds → shapeDefs go' ds = some shds := by
  intro ds
  induction ds with
  | nil =>
    intro shds h
    exact h
  | cons kv rest ih =>
    intro shds h
    cases kv with
    | mk k v =>
      unfold shapeDefs at h ⊢
      simp only [Bind.bind, Option.bind] at h ⊢
      cases hv : go v with
      | none => rw [hv] at h; exact Option.noConfusion h
      | some sh =>
        rw [hv] at h
        cases hr : shapeDefs go rest with
        | none => rw [hr] at h; exact Option.noConfusion h
        | some r =>
          rw [hr] at h
          rw [hgo v sh hv, ih hr]
          exact h

theorem contains_false_iff {l : List Nat} {a : Nat} :
    l.contains a = false ↔ a ∉ l := by
  rw [Bool.eq_false_iff]
  exact not_congr List.elem_iff

theorem contains_app_false {l m : List Nat} {a : Nat}
    (h1 : l.contains a = false) (h2 : m.contains a = false) :
    (l ++ m).contains a = false := by
  rw [contains_false_iff] at *
  simp only [List.mem_append]
  exact fun h => h.elim h1 h2

/-- A store extension that agrees below the old length preserves every
defined id. -/
theorem stable_of_agrees {s s' : Store} (hag : AgreesBelow s.length s s') :
    ∀ k n, getN s k = some n → getN s' k = some n := by
  intro k n hk
  rw [hag k (getN_lt_length hk)]
  exact hk

/-- A satisfied `shapeFrom` query survives any change of store and avoid
set that preserves the lookups and the non-avoidance of the ids the
traversal actually visits. -/
theorem shapeFrom_transport :
    ∀ (f : Nat) {s s2 : Store} {bad bad2 : List NodeId},
    (∀ k n, bad.contains k = false → getN s k = some n → getN s2 k = some n) →
    (∀ k n, bad.contains k = false → getN s k = some n →
      bad2.contains k = false) →
    ∀ {i : NodeId} {sh : Shape},
    shapeFrom f s bad i = some sh → shapeFrom f s2 bad2 i = some sh := by
  intro f
  induction f with
  | zero =>
    intro s s2 bad bad2 hg hb i sh h
    exact Option.noConfusion h
  | succ f ih =>
    intro s s2 bad bad2 hg hb i sh h
    unfold shapeFrom at h ⊢
    cases hbc : bad.contains i with
    | true =>
      rw [hbc] at h
      exact Option.noConfusion h
    | false =>
      rw [hbc] at h
      simp only [Bool.false_eq_true, if_false] at h
      cases hgi : getN s i with
      | none =>
        rw [hgi] at h
        exact Option.noConfusion h
      | some n =>
        rw [hgi] at h
        rw [hb i n hbc hgi, hg i n hbc hgi]
        simp only [Bool.false_eq_true, if_false]
        cases n with
        | mk d co =>
          cases d <;>
            simp only [Bind.bind, Option.bind] at h ⊢ <;>
            try exact Option.noConfusion h
          case cloneAttr => exact h
          case block ds =>
            cases hsd : shapeDefs (shapeFrom f s bad) ds with
            | none =>
              rw [hsd] at h
              exact Option.noConfusion h
            | some shds =>
              rw [hsd] at h
              rw [shapeDefs_congr (fun v shv hv => ih hg hb hv) hsd]
              exact h
          case overrideNode b ds =>
            cases hsb : shapeFrom f s bad b with
            | none =>
              rw [hsb] at h
              exact Option.noConfusion h
            | some sb =>
              rw [hsb] at h
              cases hsd : shapeDefs (shapeFrom f s bad) ds with
              | none =>
                rw [hsd] at h
                exact Option.noConfusion h
              | some shds =>
                rw [hsd] at h
                rw [ih hg hb hsb,
                  shapeDefs_congr (fun v shv hv => ih hg hb hv) hsd]
                exact h
          case callNode b ds =>
            cases hsb : shapeFrom f s bad b with
            | none =>
              rw [hsb] at h
              exact Option.noConfusion h
            | some sb =>
              rw [hsb] at h
              cases hsd : shapeDefs (shapeFrom f s bad) ds with
              | none =>
                rw [hsd] at h
                exact Option.noConfusion h
              | some shds =>
                rw [hsd] at h
                rw [ih hg hb hsb,
                  shapeDefs_congr (fun v shv hv => ih hg hb hv) hsd]
                exact h
          case accessNode b a =>
            cases hsb : shapeFrom f s bad b with
            | none =>
              rw [hsb] at h
              exact Option.noConfusion h
            | some sb =>
              rw [hsb] at h
              rw [ih hg hb hsb]
              exact h
          case eagerNode b =>
            cases hsb : shapeFrom f s bad b with
            | none =>
              rw [hsb] at h
              exact Option.noConfusion h
            | some sb =>
              rw [hsb] at h
              rw [ih hg hb hsb]
              exact h

/-- `prepDefs` sends a defs list whose values all have shapes to a defs
list whose values have the same shapes, when the traversal it folds does
so for each value. -/
theorem prepDefs_shape {go : Store → NodeId → Except Err (Store × NodeId)}
    {f : Nat} (L : Nat) {bad : List NodeId}
    (hgoAg : ∀ s e p, go s e = Except.ok p →
      AgreesBelow s.length s p.1 ∧ s.length ≤ p.1.length)
    (hgoSh : ∀ s e p sh, L ≤ s.length → shapeFrom f s bad e = some sh →
      go s e = Except.ok p → shapeFrom f p.1 bad p.2 = some sh) :
    ∀ {ds : List (String × NodeId)} {s : Store}
      {q : Store × List (String × NodeId)} {shds : List (String × Shape)},
    L ≤ s.length →
    shapeDefs (shapeFrom f s bad) ds = some shds →
    prepDefs go s ds = Except.ok q →
    shapeDefs (shapeFrom f q.1 bad) q.2 = some shds := by
  intro ds
  induction ds with
  | nil =>
    intro s q shds hL hsd hp
    cases hp
    exact hsd
  | cons kv rest ih =>
    intro s q shds hL hsd hp
    cases kv with
    | mk k v =>
      unfold shapeDefs at hsd
      simp only [Bind.bind, Option.bind] at hsd
      cases hv : shapeFrom f s bad v with
      | none =>
        rw [hv] at hsd
        exact Option.noConfusion hsd
      | some shv =>
        rw [hv] at hsd
        cases hr : shapeDefs (shapeFrom f s bad) rest with
        | none =>
          rw [hr] at hsd
          exact Option.noConfusion hsd
        | some shr =>
          rw [hr] at hsd
          unfold prepDefs at hp
          simp only [Bind.bind, Except.bind] at hp
          repeat' (first | split at hp | (rw [eq_comm] at hp; split at hp))
          any_goals exact Except.noConfusion hp
          rename go s v = Except.ok _ => hgov
          rename prepDefs go _ rest = Except.ok _ => hprest
          cases hp
          obtain ⟨hagA, hlenA⟩ := hgoAg _ _ _ hgov
          obtain ⟨hagB, hlenB⟩ := prepDefs_agrees hgoAg hprest
          have hstabA := stable_of_agrees hagA
          have hstabB := stable_of_agrees hagB
          have hv1 := hgoSh _ _ _ _ hL hv hgov
          have hv2 : shapeFrom f _ bad _ = some shv :=
            shapeFrom_transport f (fun k' n' _ hk' => hstabB k' n' hk')
              (fun k' _ hbk' _ => hbk') hv1
          have hrA : shapeDefs (shapeFrom f _ bad) rest = some shr :=
            shapeDefs_congr
              (fun v' shv' hv' =>
                shapeFrom_transport f (fun k' n' _ hk' => hstabA k' n' hk')
                  (fun k' _ hbk' _ => hbk') hv')
              hr
          have hrB := ih (le_trans hL hlenA) hrA hprest
          unfold shapeDefs
          simp only [Bind.bind, Option.bind]
          rw [hv2, hrB]
          rw [hsd]

theorem getN_append_last (s : Store) (x : NodeObj) :
    getN (s ++ [x]) s.length = some x := by
  simp [getN]

theorem getN_setN_self {s : Store} {i : Nat} (x : NodeObj)
    (h : i < s.length) : getN (setN s i x) i = some x := by
  simp only [getN, setN]
  exact List.getElem?_set_self h

/-- The avoid sets used below consist of defined ids, so fresh ids are
never in them. -/
theorem contains_false_of_lt {bad : List NodeId} {L j : Nat}
    (hb : ∀ x ∈ bad, x < L) (hj : L ≤ j) : bad.contains j = false := by
  rw [contains_false_iff]
  intro hmem
  exact absurd (lt_of_lt_of_le (hb j hmem) hj) (lt_irrefl j)

theorem contains_single_false {o j : Nat} (h : j ≠ o) :
    ([o] : List NodeId).contains j = false := by
  rw [contains_false_iff]
  simp only [List.mem_singleton]
  exact h

/-- C4, amended: `preprocess` is not the identity on surface-free
graphs (it fails on `BackEdge` and built-ins and rewraps literals), but
restricted to graphs built only of `Block`, `Override`, `Call`,
`Access`, `Eager` and `CloneAttr` nodes it preserves the tree shape and
the attribute names — the output graph is unchanged modulo identity. -/
theorem preprocess_shape : ∀ (fuel : Nat)
    {parents : List (NodeId × List String)} {s : Store} {e : NodeId}
    {s1 : Store} {j : NodeId} {sh : Shape} {bad : List NodeId},
    (∀ x ∈ bad, x < s.length) →
    shapeFrom fuel s bad e = some sh →
    preprocessF fuel parents s e = Except.ok (s1, j) →
    shapeFrom fuel s1 bad j = some sh := by
  intro fuel
  induction fuel with
  | zero =>
    intro parents s e s1 j sh bad hbad hsh h
    exact Except.noConfusion h
  | succ f ih =>
    intro parents s e s1 j sh bad hbad hsh h
    unfold shapeFrom at hsh
    cases hbc : bad.contains e with
    | true =>
      rw [hbc] at hsh
      exact Option.noConfusion hsh
    | false =>
      rw [hbc] at hsh
      simp only [Bool.false_eq_true, if_false] at hsh
      cases hge : getN s e with
      | none =>
        rw [hge] at hsh
        exact Option.noConfusion hsh
      | some n =>
        rw [hge] at hsh
        unfold preprocessF readE at h
        rw [hge] at h
        simp only [Bind.bind, Except.bind] at h
        cases n with
        | mk d co =>
          cases d <;> simp only [Bind.bind, Option.bind] at hsh <;>
            try exact Option.noConfusion hsh
          case cloneAttr a =>
            simp only [] at h
            cases h
            unfold shapeFrom
            rw [hbc]
            simp only [Bool.false_eq_true, if_false]
            rw [hge]
            exact hsh
          case accessNode b attr =>
            cases hsb : shapeFrom f s bad b with
            | none =>
              rw [hsb] at hsh
              exact Option.noConfusion hsh
            | some shb =>
              rw [hsb] at hsh
              simp only [Option.map] at hsh
              simp only [] at h
              repeat' (first | split at h | (rw [eq_comm] at h; split at h))
              any_goals exact Except.noConfusion h
              rename preprocessF _ _ _ _ = Except.ok _ => hq
              simp only [alloc] at h
              cases h
              obtain ⟨hagA, hlenA⟩ := preprocessF_agrees f hq
              have hshA := ih hbad hsb hq
              unfold shapeFrom
              rw [contains_false_of_lt hbad hlenA]
              simp only [Bool.false_eq_true, if_false]
              rw [getN_append_last]
              simp only []
              rw [shapeFrom_transport f
                (fun k n _ hk =>
                  stable_of_agrees (agreesBelow_append _ _ (le_refl _)) k n hk)
                (fun k _ hbk _ => hbk) hshA]
              exact hsh
          case eagerNode b =>
            cases hsb : shapeFrom f s bad b with
            | none =>
              rw [hsb] at hsh
              exact Option.noConfusion hsh
            | some shb =>
              rw [hsb] at hsh
              simp only [Option.map] at hsh
              simp only [] at h
              repeat' (first | split at h | (rw [eq_comm] at h; split at h))
              any_goals exact Except.noConfusion h
              rename preprocessF _ _ _ _ = Except.ok _ => hq
              simp only [alloc] at h
              cases h
              obtain ⟨hagA, hlenA⟩ := preprocessF_agrees f hq
              have hshA := ih hbad hsb hq
              unfold shapeFrom
              rw [contains_false_of_lt hbad hlenA]
              simp only [Bool.false_eq_true, if_false]
              rw [getN_append_last]
              simp only []
              rw [shapeFrom_transport f
                (fun k n _ hk =>
                  stable_of_agrees (agreesBelow_append _ _ (le_refl _)) k n hk)
                (fun k _ hbk _ => hbk) hshA]
              exact hsh
          case block ds =>
            cases hsd : shapeDefs (shapeFrom f s bad) ds with
            | none =>
              rw [hsd] at hsh
              exact Option.noConfusion hsh
            | some shds =>
              rw [hsd] at hsh
              simp only [Option.map] at hsh
              simp only [alloc] at h
              repeat' (first | split at h | (rw [eq_comm] at h; split at h))
              any_goals exact Except.noConfusion h
              rename Store × List (String × NodeId) => r
              rename prepDefs _ _ _ = Except.ok _ => hpd
              cases h
              obtain ⟨hagP, hlenP⟩ := prepDefs_agrees
                (fun s2 e2 p hp => preprocessF_agrees f hp) hpd
              have hmemo : (s.length : NodeId) ∈ bad ++ [s.length] :=
                List.mem_append_right _ (List.mem_singleton.mpr rfl)
              have hbadX : ∀ x ∈ bad ++ [s.length], x < s.length + 1 := by
                intro x hx
                rcases List.mem_append.mp hx with h1 | h1
                · exact Nat.lt_succ_of_lt (hbad x h1)
                · rw [List.mem_singleton] at h1
                  rw [h1]
                  exact Nat.lt_succ_self _
              have hb1 : ∀ (k : NodeId) (n2 : NodeObj),
                  bad.contains k = false → getN s k = some n2 →
                  (bad ++ [s.length]).contains k = false :=
                fun k n2 hbk hk => contains_app_false hbk
                  (contains_single_false (Nat.ne_of_lt (getN_lt_length hk)))
              have hsdA : shapeDefs
                  (shapeFrom f (s ++ [⟨NodeData.block [], none⟩])
                    (bad ++ [s.length])) ds = some shds :=
                shapeDefs_congr
                  (fun v shv hv => shapeFrom_transport f
                    (fun k n2 _ hk => stable_of_agrees
                      (agreesBelow_append _ _ (le_refl _)) k n2 hk)
                    hb1 hv) hsd
              have hq := prepDefs_shape (s.length + 1)
                (fun s2 e2 p hp => preprocessF_agrees f hp)
                (fun s2 e2 p sh2 hL2 hsh2 hp =>
                  ih (fun x hx => lt_of_lt_of_le (hbadX x hx) hL2) hsh2 hp)
                (by simp) hsdA hpd
              have hfin : shapeDefs
                  (shapeFrom f (setN r.1 s.length
                    ⟨NodeData.block r.2, none⟩) bad) r.2 = some shds :=
                shapeDefs_congr
                  (fun v shv hv => shapeFrom_transport f
                    (fun k n2 hbk hk => by
                      rw [getN_setN_ne r.1 s.length _ k
                        (fun heq => (contains_false_iff.mp hbk)
                          (heq ▸ hmemo))]
                      exact hk)
                    (fun k n2 hbk hk => by
                      rw [contains_false_iff] at hbk ⊢
                      exact fun hm => hbk (List.mem_append_left _ hm))
                    hv) hq
              unfold shapeFrom
              rw [contains_false_of_lt hbad (le_refl _)]
              simp only [Bool.false_eq_true, if_false]
              rw [getN_setN_self _
                (lt_of_lt_of_le (Nat.lt_succ_self _) (by simpa using hlenP))]
              simp only []
              rw [hfin]
              exact hsh
          case overrideNode base ds =>
            cases hsb : shapeFrom f s bad base with
            | none =>
              rw [hsb] at hsh
              exact Option.noConfusion hsh
            | some shb =>
              rw [hsb] at hsh
              cases hsd : shapeDefs (shapeFrom f s bad) ds with
              | none =>
                rw [hsd] at hsh
                exact Option.noConfusion hsh
              | some shds =>
                rw [hsd] at hsh
                simp only [alloc] at h
                repeat' (first | split at h | (rw [eq_comm] at h; split at h))
                any_goals exact Except.noConfusion h
                rename Store × List (String × NodeId) => r
                rename Store × NodeId => pB
                rename prepDefs _ _ _ = Except.ok _ => hpd
                rename preprocessF _ _ _ _ = Except.ok _ => hq
                cases h
                simp only [] at hsh
                obtain ⟨hagB, hlenB⟩ := preprocessF_agrees f hq
                obtain ⟨hagP, hlenP⟩ := prepDefs_agrees
                  (fun s2 e2 p hp => preprocessF_agrees f hp) hpd
                have hmemo : (s.length : NodeId) ∈ bad ++ [s.length] :=
                  List.mem_append_right _ (List.mem_singleton.mpr rfl)
                have hbadX : ∀ x ∈ bad ++ [s.length], x < s.length + 1 := by
                  intro x hx
                  rcases List.mem_append.mp hx with h1 | h1
                  · exact Nat.lt_succ_of_lt (hbad x h1)
                  · rw [List.mem_singleton] at h1
                    rw [h1]
                    exact Nat.lt_succ_self _
                have hb1 : ∀ (k : NodeId) (n2 : NodeObj),
                    bad.contains k = false → getN s k = some n2 →
                    (bad ++ [s.length]).contains k = false :=
                  fun k n2 hbk hk => contains_app_false hbk
                    (contains_single_false (Nat.ne_of_lt (getN_lt_length hk)))
                have hsbA : shapeFrom f
                    (s ++ [⟨NodeData.overrideNode 0 [], none⟩])
                    (bad ++ [s.length]) base = some shb :=
                  shapeFrom_transport f
                    (fun k n2 _ hk => stable_of_agrees
                      (agreesBelow_append _ _ (le_refl _)) k n2 hk)
                    hb1 hsb
                have hshB := ih (fun x hx => by simpa using hbadX x hx) hsbA hq
                have hsdA : shapeDefs
                    (shapeFrom f pB.1 (bad ++ [s.length])) ds = some shds :=
                  shapeDefs_congr
                    (fun v shv hv => shapeFrom_transport f
                      (fun k n2 _ hk => stable_of_agrees hagB k n2
                        (stable_of_agrees
                          (agreesBelow_append _ _ (le_refl _)) k n2 hk))
                      hb1 hv) hsd
                have hq2 := prepDefs_shape (s.length + 1)
                  (fun s2 e2 p hp => preprocessF_agrees f hp)
                  (fun s2 e2 p sh2 hL2 hsh2 hp =>
                    ih (fun x hx => lt_of_lt_of_le (hbadX x hx) hL2) hsh2 hp)
                  (le_trans (by simp) hlenB) hsdA hpd
                have hgSet : ∀ (k : NodeId) (n2 : NodeObj),
                    (bad ++ [s.length]).contains k = false →
                    getN r.1 k = some n2 →
                    getN (setN r.1 s.length
                      ⟨NodeData.overrideNode pB.2 r.2, none⟩) k = some n2 :=
                  fun k n2 hbk hk => by
                    rw [getN_setN_ne r.1 s.length _ k
                      (fun heq => (contains_false_iff.mp hbk) (heq ▸ hmemo))]
                    exact hk
                have hbDrop : ∀ (k : NodeId) (n2 : NodeObj),
                    (bad ++ [s.length]).contains k = false →
                    getN r.1 k = some n2 → bad.contains k = false :=
                  fun k n2 hbk hk => by
                    rw [contains_false_iff] at hbk ⊢
                    exact fun hm => hbk (List.mem_append_left _ hm)
                have hshB2 := shapeFrom_transport f hgSet hbDrop
                  (shapeFrom_transport f
                    (fun k n2 _ hk => stable_of_agrees hagP k n2 hk)
                    (fun k n2 hbk _ => hbk) hshB)
                have hfin := shapeDefs_congr
                  (fun v shv hv => shapeFrom_transport f hgSet hbDrop hv) hq2
                unfold shapeFrom
                rw [contains_false_of_lt hbad (le_refl _)]
                simp only [Bool.false_eq_true, if_false]
                rw [getN_setN_self _
                  (lt_of_lt_of_le (Nat.lt_succ_self _)
                    (le_trans (by simpa using hlenB) hlenP))]
                simp only [Bind.bind, Option.bind]
                rw [hshB2, hfin]
                exact hsh
          case callNode base ds =>
            cases hsb : shapeFrom f s bad base with
            | none =>
              rw [hsb] at hsh
              exact Option.noConfusion hsh
            | some shb =>
              rw [hsb] at hsh
              cases hsd : shapeDefs (shapeFrom f s bad) ds with
              | none =>
                rw [hsd] at hsh
                exact Option.noConfusion hsh
              | some shds =>
                rw [hsd] at hsh
                simp only [] at h
                repeat' (first | split at h | (rw [eq_comm] at h; split at h))
                any_goals exact Except.noConfusion h
                rename Store × List (String × NodeId) => r
                rename Store × NodeId => pB
                rename prepDefs _ _ _ = Except.ok _ => hpd
                rename preprocessF _ _ _ _ = Except.ok _ => hq
                simp only [alloc] at h
                cases h
                simp only [] at hsh
                obtain ⟨hagB, hlenB⟩ := preprocessF_agrees f hq
                obtain ⟨hagP, hlenP⟩ := prepDefs_agrees
                  (fun s2 e2 p hp => preprocessF_agrees f hp) hpd
                have hshB := ih hbad hsb hq
                have hsdA : shapeDefs (shapeFrom f pB.1 bad) ds = some shds :=
                  shapeDefs_congr
                    (fun v shv hv => shapeFrom_transport f
                      (fun k n2 _ hk => stable_of_agrees hagB k n2 hk)
                      (fun k n2 hbk _ => hbk) hv) hsd
                have hq2 := prepDefs_shape s.length
                  (fun s2 e2 p hp => preprocessF_agrees f hp)
                  (fun s2 e2 p sh2 hL2 hsh2 hp =>
                    ih (fun x hx => lt_of_lt_of_le (hbad x hx) hL2) hsh2 hp)
                  hlenB hsdA hpd
                have hgApp : ∀ (k : NodeId) (n2 : NodeObj),
                    bad.contains k = false → getN r.1 k = some n2 →
                    getN (r.1 ++ [NodeObj.mk
                      (NodeData.callNode pB.2 r.2) none]) k = some n2 :=
                  fun k n2 _ hk => stable_of_agrees
                    (agreesBelow_append _ _ (le_refl _)) k n2 hk
                have hshB2 := shapeFrom_transport f hgApp
                  (fun k n2 hbk _ => hbk)
                  (shapeFrom_transport f
                    (fun k n2 _ hk => stable_of_agrees hagP k n2 hk)
                    (fun k n2 hbk _ => hbk) hshB)
                have hfin := shapeDefs_congr
                  (fun v shv hv => shapeFrom_transport f hgApp
                    (fun k n2 hbk _ => hbk) hv) hq2
                unfold shapeFrom
                rw [contains_false_of_lt hbad
                  (le_trans hlenB hlenP)]
                simp only [Bool.false_eq_true, if_false]
                rw [getN_append_last]
                simp only [Bind.bind, Option.bind]
                rw [hshB2, hfin]
                exact hsh

/-! ### Lexer (`lexer.py`)

`Tokenizer` holds `src`, `i`, `line`, `col`; `cur`/`peek` return the
empty string past the end (here: `none`); `adv` stops at the end. -/

/-- A lexer token (`Token`). -/
structure Tok where
  typ : String
  val : String
  line : Nat
  col : Nat
deriving DecidableEq, Repr

/-- The failure modes of the tokenizer (`LexError`), plus exhausted
modelling fuel. -/
inductive LexErr
  | unterminated (line col : Nat)
  | unexpected (s : String) (line col : Nat)
  | fuelOut
deriving DecidableEq, Repr

/-- The mutable state of `Tokenizer`. -/
structure LexState where
  src : List Char
  i : Nat
  line : Nat
  col : Nat
deriving DecidableEq, Repr

/-- `Tokenizer.cur` (`""` past the end becomes `none`). -/
def curChar (st : LexState) : Option Char :=
  st.src[st.i]?

/-- `Tokenizer.peek` (`""` past the end becomes `none`). -/
def peekChar (st : LexState) : Option Char :=
  st.src[st.i + 1]?

/-- One step of `Tokenizer.adv` (`if not self.cur: break`). -/
def adv1 (st : LexState) : LexState :=
  match curChar st with
  | none => st
  | some c =>
    if c = '\n' then { st with i := st.i + 1, line := st.line + 1, col := 1 }
    else { st with i := st.i + 1, col := st.col + 1 }

/-- `Tokenizer.adv(n)`. -/
def advN : Nat → LexState → LexState
  | 0, st => st
  | n + 1, st => advN n (adv1 st)

/-- `Tokenizer.singles`: the punctuation characters map to themselves,
then `^`, `@`, newline and `!` to named types. -/
def singleTok (c : Char) : Option String :=
  if c = '{' then some "\x7b"
  else if c = '}' then some "\x7d"
  else if c = '[' then some "["
  else if c = ']' then some "]"
  else if c = '(' then some "("
  else if c = ')' then some ")"
  else if c = '.' then some "."
  else if c = '=' then some "="
  else if c = ',' then some ","
  else if c = '^' then some "PARENT"
  else if c = '@' then some "SELF"
  else if c = '\n' then some "NEWLINE"
  else if c = '!' then some "UNWRAP"
  else none

/-- The body of `parse_string_lit`'s `while c := self.peek()` loop.  The
source's `if` chain is not an `elif` chain: after an escaped character is
emitted the later tests still run on the same `c`. -/
def parseStringLitLoop (quote : Char) (startLine startCol : Nat) :
    Nat → LexState → List Char → Bool → Except LexErr (Tok × LexState)
  | 0, _, _, _ => Except.error LexErr.fuelOut
  | fuel + 1, st, buf, escape =>
    match peekChar st with
    | none => Except.error (LexErr.unterminated startLine startCol)
    | some c =>
      let st1 := adv1 st
      let buf1 :=
        if escape then
          buf ++ (if c = 'n' then ['\n']
            else if c = 't' then ['\t']
            else if c = 'r' then ['\r']
            else if c = '\\' then ['\\']
            else if c = '"' then ['"']
            else if c = '\'' then ['\'']
            else ['\\', c])
        else buf
      let escape1 := if escape then false else escape
      let escape2 := if c = '\\' then true else escape1
      if c = quote then
        Except.ok (⟨"STRING", String.mk buf1, startLine, startCol⟩, adv1 st1)
      else if c = '\n' then
        Except.error (LexErr.unterminated startLine startCol)
      else
        parseStringLitLoop quote startLine startCol fuel st1
          (buf1 ++ [c]) escape2

/-- `Tokenizer.parse_string_lit`. -/
def parseStringLit (fuel : Nat) (st : LexState) (quote : Char) :
    Except LexErr (Tok × LexState) :=
  parseStringLitLoop quote st.line st.col fuel st [] false

/-- The scan loop of `parse_int_lit` / `parse_identifier`. -/
def scanWhile (p : Char → Bool) :
    Nat → LexState → List Char → (List Char × LexState)
  | 0, st, buf => (buf, st)
  | fuel + 1, st, buf =>
    match curChar st with
    | some c =>
      if p c then scanWhile p fuel (adv1 st) (buf ++ [c])
      else (buf, st)
    | none => (buf, st)

/-- `Tokenizer.parse_int_lit`: take the first character (a digit or the
minus sign), then digits. -/
def parseIntLit (fuel : Nat) (st : LexState) (c : Char) :
    Tok × LexState :=
  let r := scanWhile Char.isDigit fuel (adv1 st) [c]
  (⟨"INT", String.mk r.1, st.line, st.col⟩, r.2)

/-- `Tokenizer.parse_identifier`. -/
def parseIdentifier (fuel : Nat) (st : LexState) (c : Char) :
    Tok × LexState :=
  let r := scanWhile (fun x => x.isAlphanum || x = '_') fuel (adv1 st) [c]
  (⟨"IDENT", String.mk r.1, st.line, st.col⟩, r.2)

/-- The `while (x := self.cur) and x != "\n"` comment-skipping loop. -/
def skipComment : Nat → LexState → LexState
  | 0, st => st
  | fuel + 1, st =>
    match curChar st with
    | some c => if c = '\n' then st else skipComment fuel (adv1 st)
    | none => st

/-- `Tokenizer.next_token`.  The `^^` ANCESTOR and `:=` branches run
before the singles table, so `^^` never lexes as two PARENT tokens. -/
def nextToken (fuel : Nat) (st : LexState) :
    Except LexErr (Option Tok × LexState) :=
  match curChar st with
  | none =>
    Except.error (LexErr.unexpected "" st.line st.col)
  | some ch =>
    if ch = ' ' || ch = '\t' || ch = '\r' then
      Except.ok (none, adv1 st)
    else if ch = '^' && peekChar st = some '^' then
      Except.ok (some ⟨"ANCESTOR", "^^", st.line, st.col⟩, advN 2 st)
    else if ch = ':' && peekChar st = some '=' then
      Except.ok (some ⟨":=", ":=", st.line, st.col⟩, advN 2 st)
    else
      match singleTok ch with
      | some typ =>
        Except.ok (some ⟨typ, String.mk [ch], st.line, st.col⟩, adv1 st)
      | none =>
        if ch = '"' || ch = '\'' then do
          let r ← parseStringLit fuel st ch
          Except.ok (some r.1, r.2)
        else if ch = '#' then
          Except.ok (none, skipComment fuel st)
        else if ch.isDigit ||
            (ch = '-' && (peekChar st).any Char.isDigit) then
          let r := parseIntLit fuel st ch
          Except.ok (some r.1, r.2)
        else if ch.isAlpha || ch = '_' then
          let r := parseIdentifier fuel st ch
          Except.ok (some r.1, r.2)
        else
          Except.error (LexErr.unexpected (String.mk [ch]) st.line st.col)

/-- `Tokenizer.tokens`: the `while self.cur` loop plus the final EOF
token. -/
def tokensLoop : Nat → LexState → List Tok → Except LexErr (List Tok)
  | 0, _, _ => Except.error LexErr.fuelOut
  | fuel + 1, st, acc =>
    match curChar st with
    | none => Except.ok (acc ++ [⟨"EOF", "", st.line, st.col⟩])
    | some _ => do
      let r ← nextToken fuel st
      match r.1 with
      | some t => tokensLoop fuel r.2 (acc ++ [t])
      | none => tokensLoop fuel r.2 acc

/-- `tokenize(src)`. -/
def tokenizeL (src : String) : Except LexErr (List Tok) :=
  tokensLoop (src.length * 2 + 2) ⟨src.toList, 0, 1, 1⟩ []

/-- A surface-free graph containing a `BackEdge`: a block whose single
def `a` points at a back-edge node. -/
def c4badStore : Store :=
  [⟨NodeData.block [("a", 1)], none⟩, ⟨NodeData.backEdge 0, none⟩]

/-- Extract the returned node id of a preprocessing run. -/
def ppOkId (r : Except Err (Store × NodeId)) : Option NodeId :=
  match r with
  | Except.ok (_, j) => some j
  | Except.error _ => none

/-- A small graph of structurally-mapped kinds: a block with one def
pointing at a `CloneAttr` node. -/
def c4g : Store :=
  [⟨NodeData.block [("a", 1)], none⟩, ⟨NodeData.cloneAttr "x", none⟩]

/-- Its shape. -/
def c4shape : Shape :=
  Shape.blockS [("a", Shape.cloneAttrS "x")]

/-- The store `preprocess` returns on `c4g`. -/
def c4out : Store :=
  [⟨NodeData.block [("a", 1)], none⟩, ⟨NodeData.cloneAttr "x", none⟩,
   ⟨NodeData.block [("a", 1)], none⟩]

set_option maxRecDepth 10000 in
/-- C4, counterexample to the frozen claim: the graph
`[Block {a = #1}, BackEdge #0]` contains none of the six surface node
kinds, yet `preprocess` raises `ValueError` on it instead of leaving it
unchanged; and preprocessing the literal graph `[IntLit 5]` returns a
different node (the result of `int_to_block`), not the original one. -/
theorem preprocess_not_idempotent :
    preprocessF 4 [] c4badStore 0 = Except.error Err.cannotPreprocess ∧
    ppOkId (preprocessF 80 [] [⟨NodeData.intLit 5, none⟩] 0) = some 1 ∧
    (1 : NodeId) ≠ 0 :=
  ⟨rfl, rfl, Nat.one_ne_zero⟩

/-- C8: at every tokenizer state whose current and next characters are
both `^`, `next_token` returns the single two-character ANCESTOR token
(rather than a PARENT token or an error) and advances past both
characters.  The branch runs before the singles table, so `^^` never
lexes as two PARENT tokens. -/
theorem ancestor_single_token (fuel : Nat) (st : LexState)
    (h1 : curChar st = some '^') (h2 : peekChar st = some '^') :
    nextToken fuel st =
      Except.ok (some ⟨"ANCESTOR", "^^", st.line, st.col⟩, advN 2 st) := by
  unfold nextToken
  rw [h1, h2]
  simp

/-- The tokenizer state at the start of the source `"^^"`. -/
def lexSt0 : LexState :=
  ⟨['^', '^'], 0, 1, 1⟩

theorem ancestor_single_token_witness :
    curChar lexSt0 = some '^' ∧ peekChar lexSt0 = some '^' ∧
    nextToken 1 lexSt0 =
      Except.ok (some ⟨"ANCESTOR", "^^", 1, 1⟩, advN 2 lexSt0) :=
  ⟨rfl, rfl, ancestor_single_token 1 lexSt0 rfl rfl⟩

theorem preprocess_shape_witness :
    shapeFrom 3 c4g [] 0 = some c4shape ∧
    preprocessF 3 [] c4g 0 = Except.ok (c4out, 2) ∧
    shapeFrom 3 c4out [] 2 = some c4shape :=
  ⟨rfl, rfl, preprocess_shape 3
    (fun x hx => absurd hx (List.not_mem_nil x))
    (rfl : shapeFrom 3 c4g [] 0 = some c4shape)
    (rfl : preprocessF 3 [] c4g 0 = Except.ok (c4out, 2))⟩
